import Mathlib

/-!
# Verification of the view-construction and naming-normalization engine

Shallow embedding of the core algorithms of the document-archive view
builder: the symlink materializer (`scripts/view_utils.py`), the CTD
filename parser and trie collapsing (`scripts/generate_ctd_view.py`), the
date parser (`scripts/generate_date_view.py`), and the ATC normalization
helpers (`scripts/build_ema.py`).

Strings that are scanned character by character are modelled as `List Char`
(Python `str` is a sequence of code points); simple whole-string values use
`String`.  Filesystem state is modelled explicitly: the entry occupying a
path, and accumulated sets of created directories and links.
-/

/-! ## View materializer: `create_symlink_safe` (scripts/view_utils.py) -/

/-- The kind of filesystem entry occupying a path (a real file, a real
directory, or a symlink).  `Path.is_symlink()` is true exactly for
`symlink`; `Path.exists()` is true for any of them (targets are assumed
resolvable for files/dirs). -/
inductive FsKind where
  | file
  | dir
  | symlink
deriving DecidableEq

/-- `ViewStatistics` from `scripts/view_utils.py`: mutable counters threaded
through a materialization run. -/
structure ViewStatistics where
  dirs_created : Nat := 0
  symlinks_created : Nat := 0
  symlinks_skipped : Nat := 0
  symlinks_broken : Nat := 0
  errors : List String := []
deriving DecidableEq

/-- `create_symlink_safe(target, link, allow_broken, stats)` from
`scripts/view_utils.py`, with the filesystem abstracted to the facts the
function reads: `linkEntry` is the entry already occupying the link path
(if any) and `targetExists` is whether the target resolves.  `stats` is
modelled as always supplied (every caller in the repository passes one when
counting matters).  Returns `(created?, entry at the link path afterwards,
updated stats)`.

Control flow mirrors the source line by line:
* `link.parent.mkdir(parents=True, exist_ok=True)` always leaves the parent
  existing, so the guard `if stats and not link.parent.exists()` that would
  increment `dirs_created` can never fire;
* `if link.is_symlink()` skips only when a *symlink* occupies the path;
* otherwise a missing target (without `allow_broken`) records an error;
* otherwise `link.symlink_to(...)` is attempted; when a file or directory
  occupies the link path this raises `FileExistsError`, an `OSError`, which
  the `except` clause records as an error.  (Other, environmental `OSError`
  causes are outside the model.) -/
def create_symlink_safe (linkEntry : Option FsKind) (targetExists : Bool)
    (allow_broken : Bool) (stats : ViewStatistics) :
    Bool × Option FsKind × ViewStatistics :=
  -- link.parent.mkdir(parents=True, exist_ok=True): afterwards the parent exists,
  -- so `not link.parent.exists()` is False
  let parentMissingAfterMkdir : Bool := false
  let s0 := if parentMissingAfterMkdir then
      { stats with dirs_created := stats.dirs_created + 1 }
    else stats
  if linkEntry = some .symlink then
    (false, linkEntry, { s0 with symlinks_skipped := s0.symlinks_skipped + 1 })
  else if !allow_broken && !targetExists then
    (false, linkEntry, { s0 with errors := s0.errors ++ ["Target does not exist"] })
  else
    match linkEntry with
    | some k =>
        -- link.symlink_to raises FileExistsError; caught as OSError
        (false, some k, { s0 with errors := s0.errors ++ ["Failed to create symlink"] })
    | none =>
        let s1 := { s0 with symlinks_created := s0.symlinks_created + 1 }
        let s2 := if !targetExists then
            { s1 with symlinks_broken := s1.symlinks_broken + 1 }
          else s1
        (true, some .symlink, s2)

/-! ## ATC normalization (scripts/build_ema.py) -/

/-- `normalize_atc` from `scripts/build_ema.py` (nested in `build_atc_trie`):
pad short ATC codes with `X` to the 7-character canonical form; an empty
code goes to the reserved bucket `"Z00XXXX"`. -/
def normalize_atc (code : String) : String :=
  if code = "" then "Z00XXXX"
  else if code.length < 7 then
    code ++ String.mk (List.replicate (7 - code.length) 'X')
  else code

/-- Python `s.rstrip('X')`: drop the trailing run of `'X'` characters. -/
def rstripX (s : List Char) : List Char :=
  (s.reverse.dropWhile (fun c => c = 'X')).reverse

/-- `get_collapsed_prefix(code, length)` from `scripts/build_ema.py`
(nested in `build_atc_trie`): the first `length` characters with trailing
`X` collapsed to a single `X`.  Mirrors the source including the explicit
`length == 0` early return and the `code[:length] if len(code) >= length
else code` slice. -/
def get_collapsed_prefixN (code : List Char) (length : Nat) : List Char :=
  if length = 0 then []
  else
    let pre := if length ≤ code.length then code.take length else code
    let base := rstripX pre
    if base.length < pre.length then (if base ≠ [] then base ++ ['X'] else ['X'])
    else pre

/-- Loop body of `get_next_meaningful_level`: scan the level boundaries in
order, returning the first boundary above `current_len` whose collapsed
prefix differs from `cur`. -/
def nextLevelLoop (code : List Char) (current_len : Nat) (cur : List Char) :
    List Nat → Nat
  | [] => 999
  | lv :: rest =>
      if current_len < lv then
        if get_collapsed_prefixN code lv ≠ cur then lv
        else nextLevelLoop code current_len cur rest
      else nextLevelLoop code current_len cur rest

/-- `get_next_meaningful_level(code, current_len)` from
`scripts/build_ema.py` (nested in `build_atc_trie`). -/
def get_next_meaningful_level (code : List Char) (current_len : Nat) : Nat :=
  nextLevelLoop code current_len (get_collapsed_prefixN code current_len)
    [1, 3, 4, 5, 7]

/-- The collapsed prefix as the spec's words describe it: "the first n
characters with trailing filler characters 'X' stripped, followed by a
single 'X' only if stripping shortened the prefix". -/
def spec_collapsed_prefixN (code : List Char) (n : Nat) : List Char :=
  let pre := code.take n
  let base := rstripX pre
  if base.length < pre.length then base ++ ['X'] else pre

/-- The next meaningful level as the spec's words describe it: "the first
boundary in [1,3,4,5,7] greater than the current length whose collapsed
prefix differs from the collapsed prefix at the current length, or 999 if
no boundary differs". -/
def spec_next_meaningful_level (code : List Char) (current_len : Nat) : Nat :=
  match [1, 3, 4, 5, 7].find? (fun lv =>
      decide (current_len < lv) &&
      decide (spec_collapsed_prefixN code lv ≠ spec_collapsed_prefixN code current_len)) with
  | some lv => lv
  | none => 999

/-! ## Common-name extraction (scripts/build_ema.py) -/

/-- Python whitespace test for `str.split()` / `str.strip()` (ASCII range;
the data never contains non-ASCII whitespace). -/
def isSpaceCh (c : Char) : Bool :=
  c = ' ' || c = '\t' || c = '\n' || c = '\r' || c = '\x0b' || c = '\x0c'

/-- Scanner for `pySplit`: `acc` holds the current word's characters in
reverse; whitespace closes the word, other characters extend it. -/
def pySplitAux (acc : List Char) : List Char → List (List Char)
  | [] => if acc = [] then [] else [acc.reverse]
  | c :: rest =>
      if isSpaceCh c then
        if acc = [] then pySplitAux [] rest
        else acc.reverse :: pySplitAux [] rest
      else pySplitAux (c :: acc) rest

/-- Python `str.split()` with no argument: split on runs of whitespace,
discarding empty words. -/
def pySplit (l : List Char) : List (List Char) := pySplitAux [] l

/-- Python `str.lower()` word by word (ASCII case mapping suffices for the
product names involved). -/
def pyLower (s : List Char) : List Char := s.map Char.toLower

/-- The `for i in range(min_len)` loop of `extract_common_name`: collect
words while every name agrees case-insensitively with the first name's
word, keeping the first name's casing; stop at the first mismatch.
`r` counts the remaining iterations (initially `min_len`), so `i` stays
below `min_len` and every `w[i]` access in the source is in bounds. -/
def commonLoop (words_list : List (List (List Char))) (first : List (List Char)) :
    Nat → Nat → List (List Char)
  | _, 0 => []
  | i, r + 1 =>
      match first[i]? with
      | none => []
      | some fw =>
          if words_list.all (fun w => (w[i]?).map pyLower = some (pyLower fw)) then
            fw :: commonLoop words_list first (i + 1) r
          else []

/-- Python `" ".join(words)`. -/
def joinWords : List (List Char) → List Char
  | [] => []
  | [w] => w
  | w :: ws => w ++ ' ' :: joinWords ws

/-- `extract_common_name(names)` from `scripts/build_ema.py`: the longest
common leading-word sequence of the given names (case-insensitive
comparison per word, original casing from the first name), or `none`. -/
def extract_common_name (names : List (List Char)) : Option (List Char) :=
  if names = [] then none
  else
    let words_list := names.map pySplit
    if words_list = [] then none
    else
      let min_len :=
        match words_list.map List.length with
        | [] => 0
        | x :: xs => xs.foldl Nat.min x
      let common := commonLoop words_list (words_list.headD []) 0 min_len
      if common ≠ [] then some (joinWords common) else none

/-! ## Date parser (scripts/generate_date_view.py) -/

/-- Python `\d` for the ASCII digits appearing in the filename data. -/
def isDigitCh (c : Char) : Bool := c.isDigit

/-- The `MONTHS` table from `scripts/generate_date_view.py`: lower-case
three-letter month abbreviation to two-digit month number. -/
def MONTHS : List (List Char × List Char) :=
  [("jan".data, "01".data), ("feb".data, "02".data), ("mar".data, "03".data),
   ("apr".data, "04".data), ("may".data, "05".data), ("jun".data, "06".data),
   ("jul".data, "07".data), ("aug".data, "08".data), ("sep".data, "09".data),
   ("oct".data, "10".data), ("nov".data, "11".data), ("dec".data, "12".data)]

/-- Look up a (case-insensitively matched, already lowered) month
abbreviation in `MONTHS`. -/
def monthNum (m : List Char) : Option (List Char) :=
  (MONTHS.find? (fun p => p.1 = m)).map (·.2)

/-- Whether three characters form a month abbreviation, case-insensitively
(the regex alternation `(Jan|Feb|...|Dec)` under `re.IGNORECASE`). -/
def isMonthAbbrev (a b c : Char) : Bool :=
  (MONTHS.find? (fun p => p.1 = pyLower [a, b, c])).isSome

/-- Python `day.zfill(2)`: left-pad a one-digit day with `'0'`. -/
def zfill2 (s : List Char) : List Char :=
  if s.length < 2 then List.replicate (2 - s.length) '0' ++ s else s

/-- Match the regex `(\d{4})(Jan|...|Dec)(\d{1,2})` (IGNORECASE) at the
start of the list: four digits, a month abbreviation, then one or two
digits (greedy).  Returns `(year, month-abbrev, day, rest)`. -/
def matchAtA : List Char → Option (List Char × List Char × List Char × List Char)
  | y1 :: y2 :: y3 :: y4 :: m1 :: m2 :: m3 :: d1 :: rest =>
      if isDigitCh y1 && isDigitCh y2 && isDigitCh y3 && isDigitCh y4 &&
          isMonthAbbrev m1 m2 m3 && isDigitCh d1 then
        match rest with
        | d2 :: rest2 =>
            if isDigitCh d2 then some ([y1, y2, y3, y4], [m1, m2, m3], [d1, d2], rest2)
            else some ([y1, y2, y3, y4], [m1, m2, m3], [d1], rest)
        | [] => some ([y1, y2, y3, y4], [m1, m2, m3], [d1], [])
      else none
  | _ => none

/-- The tail `(Jan|...|Dec)(\d{4})` of the `DDMonYYYY` pattern: a month
abbreviation then four digits.  Returns `(month-abbrev, year, rest)`. -/
def matchMonYear : List Char → Option (List Char × List Char × List Char)
  | m1 :: m2 :: m3 :: y1 :: y2 :: y3 :: y4 :: rest =>
      if isMonthAbbrev m1 m2 m3 && isDigitCh y1 && isDigitCh y2 &&
          isDigitCh y3 && isDigitCh y4 then
        some ([m1, m2, m3], [y1, y2, y3, y4], rest)
      else none
  | _ => none

/-- Match the regex `(\d{1,2})(Jan|...|Dec)(\d{4})` (IGNORECASE) at the
start of the list, `\d{1,2}` greedy with backtracking: two digits are
tried first, then one.  Returns `(day, month-abbrev, year, rest)`. -/
def matchAtB (l : List Char) : Option (List Char × List Char × List Char × List Char) :=
  match l with
  | d1 :: rest1 =>
      if isDigitCh d1 then
        match rest1 with
        | d2 :: rest2 =>
            if isDigitCh d2 then
              match matchMonYear rest2 with
              | some (m, y, rest) => some ([d1, d2], m, y, rest)
              | none =>
                  match matchMonYear rest1 with
                  | some (m, y, rest) => some ([d1], m, y, rest)
                  | none => none
            else
              match matchMonYear rest1 with
              | some (m, y, rest) => some ([d1], m, y, rest)
              | none => none
        | [] => none
      else none
  | [] => none

/-- Match the regex `(\d{4})-(\d{2})-(\d{2})` at the start of the list.
Returns `(year, month, day, rest)`. -/
def matchAtC : List Char → Option (List Char × List Char × List Char × List Char)
  | y1 :: y2 :: y3 :: y4 :: h1 :: m1 :: m2 :: h2 :: d1 :: d2 :: rest =>
      if isDigitCh y1 && isDigitCh y2 && isDigitCh y3 && isDigitCh y4 &&
          h1 = '-' && isDigitCh m1 && isDigitCh m2 && h2 = '-' &&
          isDigitCh d1 && isDigitCh d2 then
        some ([y1, y2, y3, y4], [m1, m2], [d1, d2], rest)
      else none
  | _ => none

/-- `re.search` for a positional matcher: scan left to right and return the
leftmost match as `(text before, match groups, text after)`. -/
def reSearch (m : List Char → Option (List Char × List Char × List Char × List Char)) :
    List Char → Option (List Char × (List Char × List Char × List Char) × List Char)
  | [] =>
      match m [] with
      | some (a, b, c, rest) => some ([], (a, b, c), rest)
      | none => none
  | ch :: rest =>
      match m (ch :: rest) with
      | some (a, b, c, after) => some ([], (a, b, c), after)
      | none =>
          match reSearch m rest with
          | some (pre, g, after) => some (ch :: pre, g, after)
          | none => none

/-- Python `s.strip()`: remove leading and trailing whitespace. -/
def pyStrip (s : List Char) : List Char :=
  ((s.dropWhile isSpaceCh).reverse.dropWhile isSpaceCh).reverse

/-- `parse_date(text)` from `scripts/generate_date_view.py`: extract the
first date written as `YYYYMonDD`, `DDMonYYYY` or `YYYY-MM-DD` (tried in
that order), normalize it to `YYYY-MM-DD`, and return it together with the
text around the match, stripped.  No date found returns `(none, text)`. -/
def parse_date (text : List Char) : Option (List Char) × List Char :=
  -- Pattern 1: YYYYMonDD (e.g., 2019Dec31)
  match reSearch matchAtA text with
  | some (pre, (year, mon, day), post) =>
      let month := (monthNum (pyLower mon)).getD []
      (some (year ++ '-' :: month ++ '-' :: zfill2 day), pyStrip (pre ++ post))
  | none =>
    -- Pattern 2: DDMonYYYY (e.g., 28Jan2022)
    match reSearch matchAtB text with
    | some (pre, (day, mon, year), post) =>
        let month := (monthNum (pyLower mon)).getD []
        (some (year ++ '-' :: month ++ '-' :: zfill2 day), pyStrip (pre ++ post))
    | none =>
      -- Pattern 3: YYYY-MM-DD already formatted; the date is group(0) verbatim
      match reSearch matchAtC text with
      | some (pre, (year, month, day), post) =>
          (some (year ++ '-' :: month ++ '-' :: day), pyStrip (pre ++ post))
      | none => (none, text)

/-- The shape `YYYY-MM-DD` the spec describes for a normalized date: four
digits, a hyphen, two digits, a hyphen, two digits. -/
def isIsoShape : List Char → Bool
  | [y1, y2, y3, y4, h1, m1, m2, h2, d1, d2] =>
      isDigitCh y1 && isDigitCh y2 && isDigitCh y3 && isDigitCh y4 &&
      h1 = '-' && isDigitCh m1 && isDigitCh m2 && h2 = '-' &&
      isDigitCh d1 && isDigitCh d2
  | _ => false

/-! ## CTD filename parser (scripts/generate_ctd_view.py)

The patterns of `parse_ctd_info` are regexes over filenames.  They are
embedded as deterministic matchers: within the code grammar
`[1-5](?:\.[0-9]+)*(?:\.[A-Z](?:\.[0-9]+)*)?` the character classes of
adjacent pieces are disjoint, so the greedy parse is the unique maximal
one; every shorter backtracking candidate ends immediately before a `'.'`,
which lets each caller resolve backtracking in one explicit step (see the
individual matchers).  Filenames contain no newline, so `.` matches any
character and `$` is end-of-string. -/

/-- The character class `[1-5]`. -/
def isDigit15 (c : Char) : Bool :=
  c = '1' || c = '2' || c = '3' || c = '4' || c = '5'

/-- The character class `[A-Z]`, honouring `re.IGNORECASE` when `ic` is
true (ASCII letters; the filenames involved are ASCII). -/
def isLetterAZ (ic : Bool) (c : Char) : Bool :=
  if ic then c.isUpper || c.isLower else c.isUpper

/-- Scanner for `numGroups`, inside a digit run: `acc` holds the current
run's digits in reverse; a digit extends the run, `'.'` followed by a digit
closes it and starts the next run, anything else ends the match. -/
def numGroupsRun (acc : List Char) : List Char → List (List Char) × List Char
  | [] => ([acc.reverse], [])
  | [c] =>
      if isDigitCh c then ([(c :: acc).reverse], [])
      else ([acc.reverse], [c])
  | c :: d :: rest =>
      if isDigitCh c then numGroupsRun (c :: acc) (d :: rest)
      else if c = '.' && isDigitCh d then
        let res := numGroupsRun [d] rest
        (acc.reverse :: res.1, res.2)
      else ([acc.reverse], c :: d :: rest)

/-- Greedy match of `(?:\.[0-9]+)*`: dot-separated digit runs.  Returns the
runs (dots dropped) and the rest of the input. -/
def numGroups : List Char → List (List Char) × List Char
  | '.' :: d :: rest =>
      if isDigitCh d then numGroupsRun [d] rest
      else ([], '.' :: d :: rest)
  | l => ([], l)

/-- Greedy match of `[1-5](?:\.[0-9]+)*(?:\.[A-Z](?:\.[0-9]+)*)?` at the
start of the input (`ic` = `re.IGNORECASE`).  Returns the dot-separated
components in order, and the rest. -/
def matchCTDCode (ic : Bool) : List Char → Option (List (List Char) × List Char)
  | c :: rest =>
      if isDigit15 c then
        let res1 := numGroups rest
        match res1.2 with
        | '.' :: d :: r2 =>
            if isLetterAZ ic d then
              let res2 := numGroups r2
              some (([c] :: res1.1) ++ [d] :: res2.1, res2.2)
            else some ([c] :: res1.1, res1.2)
        | _ => some ([c] :: res1.1, res1.2)
      else none
  | [] => none

/-- Match `\s+(.+)$` (no newlines): at least one whitespace character, then
a nonempty title.  The greedy whitespace run gives back one character when
the whole rest is whitespace, because `.` also matches a space; any
backtracking into the preceding code piece fails since shorter code
candidates end before a `'.'`, never before whitespace. -/
def wsTitle (r : List Char) : Option (List Char) :=
  let m := (r.takeWhile isSpaceCh).length
  if m = 0 then none
  else if m < r.length then some (r.drop m)
  else if 2 ≤ r.length then some (r.drop (m - 1))
  else none

/-- Case-insensitive literal: strip `word` (given in lower case) from the
front of `l`, comparing lowered characters. -/
def stripCi (word : List Char) (l : List Char) : Option (List Char) :=
  match word, l with
  | [], rest => some rest
  | _ :: _, [] => none
  | w :: ws, c :: cs => if c.toLower = w then stripCi ws cs else none

/-- Join code components with `'.'` — the matched code text
(`match.group(1)` of the patterns). -/
def joinDots : List (List Char) → List Char
  | [] => []
  | [g] => g
  | g :: gs => g ++ '.' :: joinDots gs

/-- Each group preceded by a `'.'` (the textual tail of a dotted code
after its first component). -/
def dotJoin : List (List Char) → List Char
  | [] => []
  | g :: gs => '.' :: (g ++ dotJoin gs)

/-- Pattern 1 of `parse_ctd_info`:
`^Module\s+([1-5](?:\.[0-9]+)*(?:\.[A-Z](?:\.[0-9]+)*)?)\s+(.+)$`,
`re.IGNORECASE`.  Returns the code components and the title. -/
def matchP1 (base : List Char) : Option (List (List Char) × List Char) :=
  match stripCi "module".data base with
  | none => none
  | some r0 =>
      let m := (r0.takeWhile isSpaceCh).length
      if m = 0 then none
      else
        match matchCTDCode true (r0.drop m) with
        | none => none
        | some (comps, r1) =>
            match wsTitle r1 with
            | none => none
            | some title => some (comps, title)

/-- The tail `\s+Module\s+([1-5]...)` of pattern 2 at one candidate
position: whitespace, the literal `Module` (IGNORECASE), whitespace, then
the greedy code. -/
def p2Tail (l : List Char) : Option (List (List Char) × List Char) :=
  let m := (l.takeWhile isSpaceCh).length
  if m = 0 then none
  else
    match stripCi "module".data (l.drop m) with
    | none => none
    | some r0 =>
        let m2 := (r0.takeWhile isSpaceCh).length
        if m2 = 0 then none
        else matchCTDCode true (r0.drop m2)

/-- Pattern 2 of `parse_ctd_info`:
`^(.+?)\s+Module\s+([1-5]...)\s*(.*)$`, `re.IGNORECASE`.  The lazy `(.+?)`
selects the earliest split with a nonempty `title1`; after the code,
`\s*(.*)$` always matches and yields `title2`. -/
def p2Scan (acc : List Char) : List Char → Option (List Char × List (List Char) × List Char)
  | [] => none
  | c :: rest =>
      match p2Tail rest with
      | some (comps, r) => some (acc ++ [c], comps, r.dropWhile isSpaceCh)
      | none => p2Scan (acc ++ [c]) rest

/-- Pattern 2, matched from the start of the stem. -/
def matchP2 (base : List Char) : Option (List Char × List (List Char) × List Char) :=
  p2Scan [] base

/-- Pattern 3 of `parse_ctd_info`: `^([1-5]...)\s+(.+)$` (case-sensitive). -/
def matchP3 (base : List Char) : Option (List (List Char) × List Char) :=
  match matchCTDCode false base with
  | none => none
  | some (comps, r) =>
      match wsTitle r with
      | none => none
      | some title => some (comps, title)

/-- Pattern 3b of `parse_ctd_info`: `^(16(?:\.[0-9]+)+)\s+(.+)$` — the
literal `16` followed by at least one dot-separated digit run. -/
def matchP3b (base : List Char) : Option (List (List Char) × List Char) :=
  match base with
  | '1' :: '6' :: rest =>
      let res := numGroups rest
      if res.1 = [] then none
      else
        match wsTitle res.2 with
        | none => none
        | some title => some (['1', '6'] :: res.1, title)
  | _ => none

/-- Pattern 4 of `parse_ctd_info`: `^([1-5]...)[\.\-](.+)$`,
`re.IGNORECASE`, matched against the whole filename.  The greedy code is
tried first; when the separator or the nonempty rest fails, the regex
backtracks by dropping the code's final dot-component, whose preceding dot
becomes the separator and whose text rejoins the title. -/
def matchP4 (filename : List Char) : Option (List (List Char) × List Char) :=
  match matchCTDCode true filename with
  | none => none
  | some (comps, r) =>
      match r with
      | sep :: rest =>
          if (sep = '.' || sep = '-') && rest ≠ [] then some (comps, rest)
          else if 2 ≤ comps.length then
            some (comps.dropLast, (comps.getLast?.getD []) ++ r)
          else none
      | [] =>
          if 2 ≤ comps.length then
            some (comps.dropLast, (comps.getLast?.getD []) ++ r)
          else none

/-- Python `re.split(r'(\.)', code)` with the `'.'` separator pieces then
skipped by the loop in `build_components`: split on `'.'`, keeping empty
pieces. -/
def splitOnDot : List Char → List (List Char)
  | [] => [[]]
  | c :: rest =>
      if c = '.' then [] :: splitOnDot rest
      else
        match splitOnDot rest with
        | g :: gs => (c :: g) :: gs
        | [] => [[c]]

/-- The accumulation loop of `build_components`: `current` grows by one
dot-component per part (Python treats an empty `current` as falsy and
restarts it from the part alone). -/
def buildAux : List (List Char) → List Char → List (List Char)
  | [], _ => []
  | part :: ps, cur =>
      let cur2 := if cur = [] then part else cur ++ '.' :: part
      cur2 :: buildAux ps cur2

/-- `build_components(ctd_prefix, csr_appendix)` from
`scripts/generate_ctd_view.py`: expand a dotted code into the list of its
dotted prefixes; with `csr_appendix` set and a first component starting
with `16`, prepend the fixed module-5 path `["5", "5.3", "5.3.5"]`. -/
def build_components (code : List Char) (csr_appendix : Bool) :
    Option (List (List Char)) :=
  let components := buildAux (splitOnDot code) []
  match components with
  | [] => none
  | c0 :: rest =>
      if csr_appendix && "16".data.isPrefixOf c0 then
        some ("5".data :: "5.3".data :: "5.3.5".data :: c0 :: rest)
      else some (c0 :: rest)

/-- Split at the last `'.'` of a name, when any. -/
def lastDotSplit : List Char → Option (List Char × List Char)
  | [] => none
  | c :: rest =>
      match lastDotSplit rest with
      | some (b, a) => some (c :: b, a)
      | none => if c = '.' then some ([], rest) else none

/-- `pathlib`'s `Path(filename).stem` / `.suffix`: the suffix starts at the
last dot when that dot is neither the first nor the last character;
otherwise the stem is the whole name and the suffix is empty. -/
def splitStemExt (name : List Char) : List Char × List Char :=
  match lastDotSplit name with
  | some (b, a) => if b ≠ [] && a ≠ [] then (b, '.' :: a) else (name, [])
  | none => (name, [])

/-- `MANUAL_CTD_MAPPINGS["RDCP-26-0003"]` from
`scripts/generate_ctd_view.py`, checked in insertion order; each
`re.match` is a literal-prefix test (`^__Table Of Contents`,
`^_Form_FDA_1571`, `^A-703-`, `^XT23\d+`, `^5677\d*`). -/
def manualMatch (filename : List Char) :
    Option (Option (List (List Char)) × Option (List Char)) :=
  if "__Table Of Contents".data.isPrefixOf filename then
    some (some [], some "Table Of Contents.pdf".data)
  else if "_Form_FDA_1571".data.isPrefixOf filename then
    some (some [], some "Form FDA 1571.pdf".data)
  else if "A-703-".data.isPrefixOf filename then
    some (some ["4".data, "4.2".data, "4.2.3".data, "4.2.3.2".data], none)
  else if "XT23".data.isPrefixOf filename &&
      (match filename.drop 4 with
       | c :: _ => isDigitCh c
       | [] => false) then
    some (some ["4".data, "4.2".data, "4.2.3".data, "4.2.3.3".data], none)
  else if "5677".data.isPrefixOf filename then
    some (some ["4".data, "4.2".data, "4.2.3".data, "4.2.3.3".data], none)
  else none

/-- `parse_ctd_info(filename, accession)` from
`scripts/generate_ctd_view.py`: accession-specific manual overrides first,
then patterns 1, 2, 3, 3b against the stem and pattern 4 against the whole
filename, each building its key path with `build_components` and a display
name `"{code}) {title}{ext}"` (pattern 4 keeps the raw rest, which already
carries the extension).  Returns `(key path, symlink name)`; `(none, none)`
when nothing matches. -/
def parse_ctd_info (filename : List Char) (accession : Option String) :
    Option (List (List Char)) × Option (List Char) :=
  match (if accession = some "RDCP-26-0003" then manualMatch filename else none) with
  | some res => res
  | none =>
    let se := splitStemExt filename
    let base := se.1
    let ext := se.2
    match matchP1 base with
    | some (comps, title) =>
        let code := joinDots comps
        (match build_components code false with
         | some cs => (some cs, some (code ++ ')' :: ' ' :: (title ++ ext)))
         | none => (none, none))
    | none =>
    match matchP2 base with
    | some (title1, comps, title2) =>
        let code := joinDots comps
        let combined := pyStrip (title1 ++ ' ' :: title2)
        (match build_components code false with
         | some cs => (some cs, some (code ++ ')' :: ' ' :: (combined ++ ext)))
         | none => (none, none))
    | none =>
    match matchP3 base with
    | some (comps, title) =>
        let code := joinDots comps
        (match build_components code false with
         | some cs => (some cs, some (code ++ ')' :: ' ' :: (title ++ ext)))
         | none => (none, none))
    | none =>
    match matchP3b base with
    | some (comps, title) =>
        let code := joinDots comps
        (match build_components code true with
         | some cs => (some cs, some (code ++ ')' :: ' ' :: (title ++ ext)))
         | none => (none, none))
    | none =>
    match matchP4 filename with
    | some (comps, rest) =>
        let code := joinDots comps
        (match build_components code false with
         | some cs => (some cs, some (code ++ ')' :: ' ' :: rest))
         | none => (none, none))
    | none => (none, none)

/-- A single key-path segment as the claims describe it: one nonempty
dot-free component. -/
def isSegB (s : List Char) : Bool := decide (s ≠ []) && decide ('.' ∉ s)

/-- One chain step of the claimed key-path property: the next segment
equals the previous one plus a dot and one more component. -/
def isChainStepB (a b : List Char) : Bool :=
  decide (b.take a.length = a) && decide (b[a.length]? = some '.') &&
  isSegB (b.drop (a.length + 1))

/-- The rest of a chain, continuing from segment `a`. -/
def chainFromB (a : List Char) : List (List Char) → Bool
  | [] => true
  | b :: rest => isChainStepB a b && chainFromB b rest

/-- The claimed key-path property: the segments form a strictly increasing
chain of dotted prefixes — the first is a single component and each
following segment is the previous one plus one more dot-delimited
component.  (The empty path has no segments and satisfies the property
vacuously.) -/
def isPrefixChainB : List (List Char) → Bool
  | [] => true
  | c :: rest => isSegB c && chainFromB c rest

/-! ## CTD view materializer (scripts/generate_ctd_view.py)

`generate_ctd_view` groups parsed files by their key path
(`files_by_path`), builds a nested tree in a second pass, and in a third
pass walks the tree with `create_links`, collapsing single-child chains.
Paths are modelled relative to the target directory as component lists;
the filesystem state is the set of directories and symlinks created so
far (the run starts against an empty, freshly created target). -/

/-- `CTD_NAMES` from `scripts/generate_ctd_view.py` (FDA M4 module and
submodule names). -/
def CTD_NAMES : List (String × String) :=
  [("1", "Administrative"), ("1.1", "Forms"), ("1.2", "Cover-Letters"),
   ("1.3", "Administrative-Information"), ("1.3.1", "Contact-Information"), ("1.3.2", "Field-Copy-Certification"),
   ("1.3.3", "Debarment-Certification"), ("1.3.4", "Financial-Certification"), ("1.3.5", "Patent-Information"),
   ("1.4", "References"), ("1.5", "Application-Status"), ("1.6", "Meetings"),
   ("1.7", "Fast-Track"), ("1.8", "Pediatric-Administrative"), ("1.9", "Additional-Info"),
   ("1.10", "Labeling"), ("1.10.1", "Draft-Labeling"), ("1.10.2", "Final-Labeling"),
   ("1.10.3", "Carton-Container-Labels"), ("1.11", "Pharmacovigilance"), ("1.12", "Other-Correspondence"),
   ("1.12.1", "Pre-IND-Correspondence"), ("1.12.2", "IND-Correspondence"), ("1.12.3", "NDA-BLA-Correspondence"),
   ("1.12.4", "ANDA-Correspondence"), ("1.12.5", "PMA-Correspondence"), ("1.12.10", "Type-A-Meeting"),
   ("1.12.11", "Type-B-Meeting"), ("1.12.12", "Type-C-Meeting"), ("1.12.13", "Pre-Submission-Meeting"),
   ("1.12.14", "Environmental-Assessment"), ("1.12.15", "Request-Inspection-Waiver"), ("1.13", "Annual-Reports"),
   ("1.14", "Labeling-Index"), ("1.15", "Promotional-Materials"), ("1.16", "Risk-Management"),
   ("2", "Summaries"), ("2.1", "Table-of-Contents"), ("2.2", "Introduction"),
   ("2.3", "Quality-Overall-Summary"), ("2.4", "Nonclinical-Overview"), ("2.5", "Clinical-Overview"),
   ("2.6", "Nonclinical-Summaries"), ("2.6.1", "Introduction"), ("2.6.2", "Pharmacology-Summary"),
   ("2.6.3", "Pharmacokinetics-Summary"), ("2.6.4", "Toxicology-Summary"), ("2.6.5", "Integrated-Summary"),
   ("2.6.6", "Pharmacology-Tables"), ("2.6.7", "Pharmacokinetics-Tables"), ("2.7", "Clinical-Summary"),
   ("2.7.1", "Biopharmaceutics-Summary"), ("2.7.2", "Clinical-Pharmacology-Summary"), ("2.7.3", "Efficacy-Summary"),
   ("2.7.4", "Safety-Summary"), ("2.7.5", "References"), ("2.7.6", "Individual-Study-Synopses"),
   ("3", "Quality"), ("3.2", "Body-of-Data"), ("3.2.S", "Drug-Substance"),
   ("3.2.S.1", "General-Information"), ("3.2.S.2", "Manufacture"), ("3.2.S.3", "Characterisation"),
   ("3.2.S.4", "Control-of-Drug-Substance"), ("3.2.S.5", "Reference-Standards"), ("3.2.S.6", "Container-Closure-System"),
   ("3.2.S.7", "Stability"), ("3.2.P", "Drug-Product"), ("3.2.P.1", "Description-and-Composition"),
   ("3.2.P.2", "Pharmaceutical-Development"), ("3.2.P.3", "Manufacture"), ("3.2.P.4", "Control-of-Excipients"),
   ("3.2.P.5", "Control-of-Drug-Product"), ("3.2.P.6", "Reference-Standards"), ("3.2.P.7", "Container-Closure-System"),
   ("3.2.P.8", "Stability"), ("3.2.A", "Appendices"), ("3.2.A.1", "Facilities-and-Equipment"),
   ("3.2.A.2", "Adventitious-Agents"), ("3.2.A.3", "Novel-Excipients"), ("3.2.R", "Regional-Information"),
   ("3.3", "Literature-References"), ("4", "Nonclinical"), ("4.2", "Study-Reports"),
   ("4.2.1", "Pharmacology"), ("4.2.1.1", "Primary-Pharmacodynamics"), ("4.2.1.2", "Secondary-Pharmacodynamics"),
   ("4.2.1.3", "Safety-Pharmacology"), ("4.2.1.4", "Pharmacodynamic-Interactions"), ("4.2.2", "Pharmacokinetics"),
   ("4.2.2.1", "Analytical-Methods"), ("4.2.2.2", "Absorption"), ("4.2.2.3", "Distribution"),
   ("4.2.2.4", "Metabolism"), ("4.2.2.5", "Excretion"), ("4.2.2.6", "PK-Drug-Interactions"),
   ("4.2.2.7", "Other-PK-Studies"), ("4.2.3", "Toxicology"), ("4.2.3.1", "Single-Dose-Toxicity"),
   ("4.2.3.2", "Repeat-Dose-Toxicity"), ("4.2.3.3", "Genotoxicity"), ("4.2.3.4", "Carcinogenicity"),
   ("4.2.3.5", "Reproductive-Toxicity"), ("4.2.3.6", "Local-Tolerance"), ("4.2.3.7", "Other-Toxicity-Studies"),
   ("4.3", "Literature-References"), ("5", "Clinical"), ("5.2", "Tabular-Listing"),
   ("5.3", "Clinical-Study-Reports"), ("5.3.1", "Biopharmaceutic-Studies"), ("5.3.1.1", "Bioavailability"),
   ("5.3.1.2", "Comparative-BA-BE"), ("5.3.1.3", "In-Vitro-In-Vivo-Correlation"), ("5.3.1.4", "Bioanalytical-Reports"),
   ("5.3.2", "Human-Biomaterials"), ("5.3.2.1", "Plasma-Protein-Binding"), ("5.3.2.2", "Hepatic-Metabolism"),
   ("5.3.2.3", "Other-PK-Biomaterials"), ("5.3.3", "Human-PK-Studies"), ("5.3.3.1", "Healthy-Subject-PK"),
   ("5.3.3.2", "Patient-PK"), ("5.3.3.3", "Intrinsic-Factor-PK"), ("5.3.3.4", "Extrinsic-Factor-PK"),
   ("5.3.3.5", "Population-PK"), ("5.3.4", "Human-PD-Studies"), ("5.3.4.1", "Healthy-Subject-PD"),
   ("5.3.4.2", "Patient-PD"), ("5.3.5", "Efficacy-Safety-Studies"), ("5.3.5.1", "Controlled-Clinical-Studies"),
   ("5.3.5.1.1", "Symptomatic-Study"), ("5.3.5.2", "Uncontrolled-Clinical-Studies"), ("5.3.5.3", "Multiple-Dose-Studies"),
   ("5.3.5.4", "Other-Efficacy-Studies"), ("5.3.6", "Postmarketing-Experience"), ("5.3.7", "Case-Report-Forms"),
   ("5.4", "Literature-References")]

/-- `get_ctd_folder_name(module_num)`: `"{num}) {name}"` when the module
number is in `CTD_NAMES`, the number itself otherwise. -/
def get_ctd_folder_name (module_num : String) : String :=
  match CTD_NAMES.find? (fun p => p.1 = module_num) with
  | some p => module_num ++ ") " ++ p.2
  | none => module_num

/-- A node of the second-pass tree:
`{comp: {"children": {...}, "files": [(name, source), ...]}}`.  A level of
the tree is an association list in dict insertion order. -/
inductive CNode : Type where
  | mk (children : List (String × CNode)) (files : List (String × String))

/-- The children of a node. -/
def CNode.children : CNode → List (String × CNode)
  | .mk ch _ => ch

/-- The files attached directly to a node. -/
def CNode.files : CNode → List (String × String)
  | .mk _ fs => fs

/-- One `files_by_path` item folded into the tree (the second pass of
`generate_ctd_view`): ensure a node exists for every component of the
path, then extend the last node's files.  A new key is appended at the end
of its level, as Python dict insertion does.  An empty path leaves the
tree unchanged (`if ctd_path:` in the source; `files_by_path` never holds
an empty key, root files are kept separately). -/
def insertPath : List (String × CNode) → List String → List (String × String) →
    List (String × CNode)
  | forest, [], _ => forest
  | [], [c], files => [(c, .mk [] files)]
  | [], c :: c2 :: rest, files => [(c, .mk (insertPath [] (c2 :: rest) files) [])]
  | (k, .mk ch fl) :: fs, [c], files =>
      if k = c then (k, .mk ch (fl ++ files)) :: fs
      else (k, .mk ch fl) :: insertPath fs [c] files
  | (k, .mk ch fl) :: fs, c :: c2 :: rest, files =>
      if k = c then (k, .mk (insertPath ch (c2 :: rest) files) fl) :: fs
      else (k, .mk ch fl) :: insertPath fs (c :: c2 :: rest) files
termination_by f p _ => (p.length, f.length)

/-- The whole second pass: fold the `files_by_path` items (in iteration
order) into the empty tree. -/
def buildTree (entries : List (List String × List (String × String))) :
    List (String × CNode) :=
  entries.foldl (fun f e => insertPath f e.1 e.2) []

/-- Insert into an association list ordered by key.  Python's `sorted` is
an ascending stable sort and the keys of a dict level are distinct, so
insertion sort computes the same ordering. -/
def insertSorted (e : String × CNode) : List (String × CNode) → List (String × CNode)
  | [] => [e]
  | h :: t => if e.1 < h.1 then e :: h :: t else h :: insertSorted e t

/-- `sorted(node.items())` over an association-list level. -/
def sortByKey (l : List (String × CNode)) : List (String × CNode) :=
  l.foldr insertSorted []

/-- The filesystem and counter state threaded through `create_links`.
`dirs` holds every directory path existing under the target (the target
root `[]` exists from the start); `links` the created symlinks with their
targets; `linked`/`skipped` the two counters of the source. -/
structure MState where
  dirs : List (List String) := [[]]
  links : List (List String × String) := []
  linked : Nat := 0
  skipped : Nat := 0

/-- All prefixes of a path, shortest first: what `mkdir(parents=True,
exist_ok=True)` guarantees to exist afterwards. -/
def pathPrefixes (p : List String) : List (List String) :=
  (List.range (p.length + 1)).map (fun n => p.take n)

/-- `link_path.exists() or link_path.is_symlink()` over the modelled
state. -/
def linkExists (st : MState) (p : List String) : Bool :=
  st.dirs.contains p || (st.links.map Prod.fst).contains p

/-- The `for filename, source_file in files:` loop of the multi-item
branch of `create_links`: link each file into the freshly made folder,
skipping paths that already exist. -/
def linkFiles (files : List (String × String)) (folder_path : List String)
    (st : MState) : MState :=
  match files with
  | [] => st
  | (filename, source) :: rest =>
      let lp := folder_path ++ [filename]
      let st' :=
        if linkExists st lp then { st with skipped := st.skipped + 1 }
        else { st with links := st.links ++ [(lp, source)],
                       linked := st.linked + 1 }
      linkFiles rest folder_path st'

/-- `create_links(node, parent_path, accumulated_names)` from
`scripts/generate_ctd_view.py`, processing a level's entries in sorted
order (`for comp, data in sorted(node.items())`); the list argument is the
already-sorted level, and recursion into a child level sorts it.  Per
entry: an empty node is skipped; a single file collapses into a symlink
directly in `parent_path`; a single child branch recurses accumulating the
folder name; otherwise the folder (with all accumulated names) is created,
its files linked, and the children processed with a fresh accumulator. -/
def clGo : List (String × CNode) → List String → List String → MState → MState
  | [], _, _, st => st
  | (comp, .mk children files) :: rest, p, a, st =>
      let folder_name := get_ctd_folder_name comp
      let total := children.length + files.length
      let st' :=
        if total = 0 then st
        else if total = 1 && files.length = 1 then
          match files with
          | (filename, source) :: _ =>
              let link_path := p ++ [filename]
              if linkExists st link_path then { st with skipped := st.skipped + 1 }
              else { st with links := st.links ++ [(link_path, source)],
                             linked := st.linked + 1 }
          | [] => st
        else if total = 1 && children.length = 1 then
          clGo (sortByKey children) p (a ++ [folder_name]) st
        else
          let folder_path := p ++ a ++ [folder_name]
          let st1 := { st with dirs := st.dirs ++ pathPrefixes folder_path }
          let st2 := linkFiles files folder_path st1
          clGo (sortByKey children) folder_path [] st2
      clGo rest p a st'
termination_by l => sizeOf l
decreasing_by
  · have hins : ∀ (e : String × CNode) (l : List (String × CNode)),
        sizeOf (insertSorted e l) = 1 + sizeOf e + sizeOf l := by
      intro e l
      induction l with
      | nil => simp [insertSorted]
      | cons h t ih =>
          simp only [insertSorted]
          by_cases hc : e.1 < h.1
          · simp [hc]
            try omega
          · simp [hc, ih]
            try omega
    have hsort : ∀ (l : List (String × CNode)), sizeOf (sortByKey l) = sizeOf l := by
      intro l
      induction l with
      | nil => rfl
      | cons h t ih =>
          show sizeOf (insertSorted h (sortByKey t)) = _
          rw [hins, ih]
          simp
          try omega
    rw [hsort]
    simp
    try omega
  · have hins : ∀ (e : String × CNode) (l : List (String × CNode)),
        sizeOf (insertSorted e l) = 1 + sizeOf e + sizeOf l := by
      intro e l
      induction l with
      | nil => simp [insertSorted]
      | cons h t ih =>
          simp only [insertSorted]
          by_cases hc : e.1 < h.1
          · simp [hc]
            try omega
          · simp [hc, ih]
            try omega
    have hsort : ∀ (l : List (String × CNode)), sizeOf (sortByKey l) = sizeOf l := by
      intro l
      induction l with
      | nil => rfl
      | cons h t ih =>
          show sizeOf (insertSorted h (sortByKey t)) = _
          rw [hins, ih]
          simp
          try omega
    rw [hsort]
    simp
    try omega
  · simp
    try omega

/-- The third pass of `generate_ctd_view`: `target_dir.mkdir(...)` creates
the (empty) target, then `create_links(tree, target_dir, [])` runs. -/
def create_links (tree : List (String × CNode)) : MState :=
  clGo (sortByKey tree) [] [] {}

/-- Every folder name a forest level could contribute: the
`get_ctd_folder_name` of each component, at any depth (helper for the
materializer invariants). -/
def forestNames : List (String × CNode) → List String
  | [] => []
  | (c, .mk ch _) :: rest =>
      get_ctd_folder_name c :: (forestNames ch ++ forestNames rest)

/-- Every filename stored in a forest, at any depth (helper for the
materializer invariants). -/
def forestFiles : List (String × CNode) → List String
  | [] => []
  | (_, .mk ch fs) :: rest =>
      fs.map Prod.fst ++ (forestFiles ch ++ forestFiles rest)

/-- The folder names contributed by a single forest entry (helper). -/
def entryN (e : String × CNode) : List String :=
  get_ctd_folder_name e.1 :: forestNames e.2.children

/-- The filenames contributed by a single forest entry (helper). -/
def entryF (e : String × CNode) : List String :=
  e.2.files.map Prod.fst ++ forestFiles e.2.children

/-- Where the first component of a directory created by `clGo` can come
from: the current parent path, the accumulated names, or — at the root
with nothing accumulated — a folder name of the level being processed. -/
def dirHeadOK : List (String × CNode) → List String → List String → String → Prop
  | _, c0 :: _, _, c => c = c0
  | _, [], c0 :: _, c => c = c0
  | l, [], [], c => c ∈ forestNames l

/-- Where the first component of a symlink created by `clGo` can come
from: as for directories, plus — at the root — any filename stored in
the level, since a collapsed single file links directly into the
parent path. -/
def linkHeadOK : List (String × CNode) → List String → List String → String → Prop
  | _, c0 :: _, _, c => c = c0
  | l, [], c0 :: _, c => c ∈ forestFiles l ∨ c = c0
  | l, [], [], c => c ∈ forestFiles l ∨ c ∈ forestNames l

/-! # Theorems -/

/-! ## C9: `dirs_created` is never incremented by `create_symlink_safe` -/

/-- **C9**: for every call to `create_symlink_safe` with a statistics
object, `dirs_created` is unchanged on return, even when the call newly
creates the link's parent directories: the increment is guarded by a check
that the parent directory does not exist immediately after a successful
`mkdir`, which can never hold. -/
theorem claim_C9_dirs_created_unchanged (linkEntry : Option FsKind)
    (targetExists allow_broken : Bool) (stats : ViewStatistics) :
    (create_symlink_safe linkEntry targetExists allow_broken stats).2.2.dirs_created =
      stats.dirs_created := by
  rcases linkEntry with _ | k
  · cases targetExists <;> cases allow_broken <;> rfl
  · cases k <;> cases targetExists <;> cases allow_broken <;> rfl

/-! ## C1: behaviour when an entry already occupies the link path -/

/-- **C1, counterexample**: a symlink-creation request where a *real file*
already occupies the link path (target present, `allow_broken` off) is not
counted as skipped and *does* record an error, contradicting the claim
that any existing entry is skipped with no error.  (The entry is still
left unchanged.) -/
theorem claim_C1_counterexample :
    (create_symlink_safe (some .file) true false {}).2.2.symlinks_skipped = 0 ∧
    (create_symlink_safe (some .file) true false {}).2.2.errors =
      ["Failed to create symlink"] ∧
    (create_symlink_safe (some .file) true false {}).2.1 = some .file :=
  ⟨rfl, rfl, rfl⟩

/-- **C1, amended**: when an entry already occupies the link path the
existing entry is never overwritten, nothing is created and the run
continues — but only a pre-existing *symlink* is counted as skipped with
no error; a pre-existing real file or directory instead records exactly
one error (the attempted creation fails) and leaves the skip counter
unchanged. -/
theorem claim_C1_existing_entry (k : FsKind) (targetExists allow_broken : Bool)
    (stats : ViewStatistics) :
    (create_symlink_safe (some k) targetExists allow_broken stats).1 = false ∧
    (create_symlink_safe (some k) targetExists allow_broken stats).2.1 = some k ∧
    (create_symlink_safe (some k) targetExists allow_broken stats).2.2.symlinks_created =
      stats.symlinks_created ∧
    (k = .symlink →
      (create_symlink_safe (some k) targetExists allow_broken stats).2.2.symlinks_skipped =
        stats.symlinks_skipped + 1 ∧
      (create_symlink_safe (some k) targetExists allow_broken stats).2.2.errors =
        stats.errors) ∧
    (k ≠ .symlink →
      (create_symlink_safe (some k) targetExists allow_broken stats).2.2.symlinks_skipped =
        stats.symlinks_skipped ∧
      (create_symlink_safe (some k) targetExists allow_broken stats).2.2.errors.length =
        stats.errors.length + 1) := by
  cases k <;> cases targetExists <;> cases allow_broken <;>
    simp [create_symlink_safe]

/-- Witness for `claim_C1_existing_entry` at concrete inputs: an existing
symlink is skip-counted, an existing directory is not. -/
theorem claim_C1_existing_entry_witness :
    (create_symlink_safe (some .symlink) true false {}).2.2.symlinks_skipped = 0 + 1 ∧
    (create_symlink_safe (some .dir) true false {}).2.2.errors.length = 0 + 1 :=
  ⟨((claim_C1_existing_entry .symlink true false {}).2.2.2.1 rfl).1,
   ((claim_C1_existing_entry .dir true false {}).2.2.2.2 (by simp)).2⟩

/-! ## C5: `normalize_atc` -/

/-- **C5, counterexample**: `normalize_atc` does not always return a
7-character code — an input longer than 7 characters is returned
unchanged. -/
theorem claim_C5_counterexample :
    normalize_atc "L01FF021" = "L01FF021" ∧ ("L01FF021" : String).length ≠ 7 := by
  constructor
  · rfl
  · decide

/-- **C5, amended**: an input of exactly 7 characters is returned
unchanged, a shorter nonempty input is right-padded with `'X'` to exactly
7 characters, and an empty (missing) classification code maps to
`"Z00XXXX"`; inputs longer than 7 characters are returned unchanged (so
the result has 7 characters whenever the input has at most 7). -/
theorem claim_C5_normalize_atc (code : String) :
    (code.length = 7 → normalize_atc code = code) ∧
    (code ≠ "" → code.length < 7 →
      normalize_atc code = code ++ String.mk (List.replicate (7 - code.length) 'X') ∧
      (normalize_atc code).length = 7) ∧
    (code = "" → normalize_atc code = "Z00XXXX") ∧
    (7 ≤ code.length → normalize_atc code = code) := by
  refine ⟨?_, ?_, ?_, ?_⟩
  · intro h7
    have hne : code ≠ "" := by
      intro h
      rw [h] at h7
      simp at h7
    unfold normalize_atc
    simp [hne]
    omega
  · intro hne hlt
    unfold normalize_atc
    simp [hne, hlt]
    omega
  · intro h
    simp [normalize_atc, h]
  · intro hge
    have hne : code ≠ "" := by
      intro h
      rw [h] at hge
      simp at hge
    unfold normalize_atc
    simp [hne]
    omega

/-- Witness for `claim_C5_normalize_atc` at the spec's concrete inputs. -/
theorem claim_C5_normalize_atc_witness :
    normalize_atc "L01FF02" = "L01FF02" ∧ normalize_atc "L01" = "L01XXXX" ∧
    normalize_atc "" = "Z00XXXX" := by
  refine ⟨(claim_C5_normalize_atc "L01FF02").1 (by decide), ?_, ?_⟩
  · have h := ((claim_C5_normalize_atc "L01").2.1 (by decide) (by decide)).1
    rw [h]
    rfl
  · exact (claim_C5_normalize_atc "").2.2.1 rfl

/-! ## C4: collapsed prefixes and next meaningful level -/

/-- The code's `get_collapsed_prefix` computes exactly the spec's collapsed
prefix (shared helper). -/
theorem collapsed_defs_eq (code : List Char) (n : Nat) :
    get_collapsed_prefixN code n = spec_collapsed_prefixN code n := by
  unfold get_collapsed_prefixN spec_collapsed_prefixN
  have hpre : (if n ≤ code.length then code.take n else code) = code.take n := by
    split
    · rfl
    · exact (List.take_of_length_le (by omega)).symm
  by_cases h0 : n = 0
  · subst h0
    simp [rstripX]
  · simp only [h0, if_false, hpre]
    have hx : (if rstripX (code.take n) ≠ [] then rstripX (code.take n) ++ ['X'] else ['X']) =
        rstripX (code.take n) ++ ['X'] := by
      split
      · rfl
      · simp_all
    rw [hx]

/-- The scanning loop agrees with a `find?` over the boundary list
(shared helper). -/
theorem nextLevelLoop_eq_find (code : List Char) (cur : Nat) (ls : List Nat) :
    nextLevelLoop code cur (get_collapsed_prefixN code cur) ls =
      (match ls.find? (fun lv => decide (cur < lv) &&
          decide (spec_collapsed_prefixN code lv ≠ spec_collapsed_prefixN code cur)) with
       | some lv => lv
       | none => 999) := by
  induction ls with
  | nil => rfl
  | cons lv rest ih =>
      rw [nextLevelLoop, List.find?]
      simp only [collapsed_defs_eq] at ih ⊢
      by_cases h1 : cur < lv
      · by_cases h2 : spec_collapsed_prefixN code lv ≠ spec_collapsed_prefixN code cur
        · simp [h1, h2]
        · simp only [not_not] at h2
          simp [h1, h2, ih]
      · simp [h1, ih]

/-- **C4**: the collapsed prefix of length `n` equals the first `n`
characters with trailing `'X'` stripped, followed by a single `'X'` only
if stripping shortened the prefix; and the next-meaningful-level function
returns the first boundary in `{1,3,4,5,7}` greater than the current
length whose collapsed prefix differs from the one at the current length,
or the sentinel `999` when no such boundary differs. -/
theorem claim_C4_collapsed_and_next_level (code : List Char) (n current_len : Nat) :
    get_collapsed_prefixN code n = spec_collapsed_prefixN code n ∧
    get_next_meaningful_level code current_len =
      spec_next_meaningful_level code current_len := by
  refine ⟨collapsed_defs_eq code n, ?_⟩
  unfold get_next_meaningful_level spec_next_meaningful_level
  exact nextLevelLoop_eq_find code current_len [1, 3, 4, 5, 7]

/-! ## C8: `extract_common_name` -/

/-- A fold of `Nat.min` is attained by the initial value or by a list
element (shared helper). -/
theorem foldl_min_attained (xs : List Nat) : ∀ (x : Nat),
    xs.foldl Nat.min x = x ∨ xs.foldl Nat.min x ∈ xs := by
  induction xs with
  | nil =>
      intro x
      left
      rfl
  | cons y ys ih =>
      intro x
      rw [List.foldl_cons]
      rcases ih (Nat.min x y) with h | h
      · rw [h]
        rcases Nat.le_total x y with hxy | hxy
        · left
          exact Nat.min_eq_left hxy
        · right
          have hy : Nat.min x y = y := Nat.min_eq_right hxy
          rw [hy]
          exact List.mem_cons_self y ys
      · right
        exact List.mem_cons_of_mem y h

/-- A fold of `Nat.min` never exceeds the initial value (shared helper). -/
theorem foldl_min_le_init (xs : List Nat) : ∀ (x : Nat), xs.foldl Nat.min x ≤ x := by
  induction xs with
  | nil =>
      intro x
      exact Nat.le_refl x
  | cons y ys ih =>
      intro x
      rw [List.foldl_cons]
      exact Nat.le_trans (ih (Nat.min x y)) (Nat.min_le_left x y)

/-- Behaviour of the `extract_common_name` loop (shared helper): starting
at index `i` with `r` iterations left, it returns a slice
`(first.drop i).take k` of the first name's words such that every name
agrees case-insensitively on the first `k` compared positions, and it
stops only at the iteration bound, the end of the first name's words, or
an actual mismatch. -/
theorem commonLoop_spec (wl : List (List (List Char))) (first : List (List Char)) :
    ∀ (r i : Nat), ∃ k,
      commonLoop wl first i r = (first.drop i).take k ∧ k ≤ r ∧
      (∀ j, j < k → ∀ w ∈ wl, (w[i + j]?).map pyLower = (first[i + j]?).map pyLower) ∧
      (k = r ∨ first.length ≤ i + k ∨
        ∃ w ∈ wl, (w[i + k]?).map pyLower ≠ (first[i + k]?).map pyLower) := by
  intro r
  induction r with
  | zero =>
      intro i
      exact ⟨0, by simp [commonLoop], Nat.le_refl 0,
        fun j hj => absurd hj (Nat.not_lt_zero j), Or.inl rfl⟩
  | succ r ih =>
      intro i
      cases hfi : first[i]? with
      | none =>
          refine ⟨0, ?_, Nat.zero_le _,
            fun j hj => absurd hj (Nat.not_lt_zero j), Or.inr (Or.inl ?_)⟩
          · simp [commonLoop, hfi]
          · have := List.getElem?_eq_none_iff.mp hfi
            omega
      | some fw =>
          by_cases hall : wl.all (fun w => (w[i]?).map pyLower = some (pyLower fw))
          · obtain ⟨k, hek, hkr, hagree, hstop⟩ := ih (i + 1)
            have hilt : i < first.length := by
              by_contra hge
              rw [List.getElem?_eq_none_iff.mpr (by omega)] at hfi
              exact Option.noConfusion hfi
            have hdrop : first.drop i = fw :: first.drop (i + 1) := by
              have h1 := List.drop_eq_getElem_cons hilt
              have h2 : first[i] = fw := by
                have := List.getElem?_eq_getElem hilt
                rw [hfi] at this
                exact (Option.some.injEq _ _).mp this.symm
              rw [h1, h2]
            refine ⟨k + 1, ?_, by omega, ?_, ?_⟩
            · rw [commonLoop, hfi]
              simp only [hall, if_true]
              rw [hek, hdrop, List.take_succ_cons]
            · intro j hj w hw
              cases j with
              | zero =>
                  have := (List.all_eq_true.mp hall) w hw
                  simp only [decide_eq_true_eq] at this
                  rw [Nat.add_zero, this, hfi]
                  rfl
              | succ j' =>
                  have : i + (j' + 1) = (i + 1) + j' := by omega
                  rw [this]
                  exact hagree j' (by omega) w hw
            · rcases hstop with h | h | h
              · left
                omega
              · right
                left
                omega
              · right
                right
                have : (i + 1) + k = i + (k + 1) := by omega
                rw [this] at h
                exact h
          · refine ⟨0, ?_, Nat.zero_le _,
              fun j hj => absurd hj (Nat.not_lt_zero j), Or.inr (Or.inr ?_)⟩
            · rw [commonLoop, hfi]
              simp only [hall, if_false]
              rfl
            · have hex : ∃ w ∈ wl, ¬ ((w[i]?).map pyLower = some (pyLower fw)) := by
                by_contra hc
                push_neg at hc
                apply hall
                rw [List.all_eq_true]
                intro w hw
                exact decide_eq_true (hc w hw)
              obtain ⟨w, hw, hne⟩ := hex
              refine ⟨w, hw, ?_⟩
              rw [Nat.add_zero, hfi]
              exact hne

/-- **C8**: `extract_common_name` returns the longest common leading-word
sequence of the input names, comparing word-by-word case-insensitively and
stopping at the first mismatch, with the original casing taken from the
first name: the two concrete spec examples, plus the general shape of every
`some` result — a nonempty prefix of the first name's words on which all
names agree case-insensitively, maximal in that it ends at some name's
word count or at an actual case-insensitive mismatch. -/
theorem claim_C8_extract_common_name :
    extract_common_name ["Bortezomib Sun".data, "Bortezomib Hospira".data,
      "Bortezomib Fresenius Kabi".data] = some ("Bortezomib".data) ∧
    extract_common_name ["A X".data, "B Y".data] = none ∧
    ∀ names r, extract_common_name names = some r →
      ∃ k, 1 ≤ k ∧
        r = joinWords ((pySplit (names.headD [])).take k) ∧
        (∀ nm ∈ names, ∀ i, i < k →
          ((pySplit nm)[i]?).map pyLower =
            ((pySplit (names.headD []))[i]?).map pyLower) ∧
        ((∃ nm ∈ names, (pySplit nm).length = k) ∨
         (∃ nm ∈ names, ((pySplit nm)[k]?).map pyLower ≠
            ((pySplit (names.headD []))[k]?).map pyLower)) := by
  refine ⟨by decide, by decide, ?_⟩
  intro names r hr
  rcases names with _ | ⟨n0, ns⟩
  · simp [extract_common_name] at hr
  · unfold extract_common_name at hr
    simp only [reduceCtorEq, List.map_cons, if_false, List.headD_cons] at hr
    by_cases hcom :
        commonLoop (pySplit n0 :: List.map pySplit ns) (pySplit n0) 0
          (List.foldl Nat.min (pySplit n0).length
            (List.map List.length (List.map pySplit ns))) = []
    · rw [hcom] at hr
      simp at hr
    · rw [if_pos hcom] at hr
      have hjoin := Option.some.inj hr
      obtain ⟨k, hek, hkr, hagree, hstop⟩ :=
        commonLoop_spec (pySplit n0 :: List.map pySplit ns) (pySplit n0)
          (List.foldl Nat.min (pySplit n0).length
            (List.map List.length (List.map pySplit ns))) 0
      simp only [List.drop_zero] at hek
      have hk1 : 1 ≤ k := by
        by_contra h0
        have hk0 : k = 0 := by omega
        rw [hk0, List.take_zero] at hek
        exact hcom hek
      have hmin_le : List.foldl Nat.min (pySplit n0).length
          (List.map List.length (List.map pySplit ns)) ≤ (pySplit n0).length :=
        foldl_min_le_init _ _
      refine ⟨k, hk1, ?_, ?_, ?_⟩
      · rw [List.headD_cons, ← hjoin, hek]
      · intro nm hnm i hik
        rw [List.mem_cons] at hnm
        have hw : pySplit nm ∈ pySplit n0 :: List.map pySplit ns := by
          rcases hnm with h | h
          · rw [h]
            exact List.mem_cons_self _ _
          · exact List.mem_cons_of_mem _ (List.mem_map_of_mem pySplit h)
        have := hagree i hik (pySplit nm) hw
        simpa using this
      · rcases hstop with h | h | h
        · -- the loop ran out of iterations: the minimum word count is attained
          left
          rcases foldl_min_attained (List.map List.length (List.map pySplit ns))
              ((pySplit n0).length) with ha | ha
          · exact ⟨n0, List.mem_cons_self _ _, by omega⟩
          · rw [h] at *
            rw [List.mem_map] at ha
            obtain ⟨w, hwmem, hlen⟩ := ha
            rw [List.mem_map] at hwmem
            obtain ⟨nm, hnm, hwnm⟩ := hwmem
            refine ⟨nm, List.mem_cons_of_mem _ hnm, ?_⟩
            rw [← hwnm] at hlen
            exact hlen
        · -- the first name's words ran out: the first name attains k
          left
          refine ⟨n0, List.mem_cons_self _ _, ?_⟩
          simp only [Nat.zero_add] at h
          omega
        · -- an actual case-insensitive mismatch at position k
          right
          simp only [Nat.zero_add] at h
          obtain ⟨w, hwmem, hne⟩ := h
          rw [List.mem_cons] at hwmem
          rcases hwmem with h0 | h0
          · refine ⟨n0, List.mem_cons_self _ _, ?_⟩
            rw [h0] at hne
            simpa using hne
          · rw [List.mem_map] at h0
            obtain ⟨nm, hnm, hwnm⟩ := h0
            refine ⟨nm, List.mem_cons_of_mem _ hnm, ?_⟩
            rw [← hwnm] at hne
            simpa using hne

/-- Witness for `claim_C8_extract_common_name`'s general clause at a
concrete input. -/
theorem claim_C8_witness :
    ∃ k, 1 ≤ k ∧
      "Bortezomib".data = joinWords ((pySplit (["Bortezomib Sun".data,
        "Bortezomib Hospira".data].headD [])).take k) ∧
      (∀ nm ∈ ["Bortezomib Sun".data, "Bortezomib Hospira".data], ∀ i, i < k →
        ((pySplit nm)[i]?).map pyLower =
          ((pySplit (["Bortezomib Sun".data, "Bortezomib Hospira".data].headD []))[i]?).map pyLower) ∧
      ((∃ nm ∈ ["Bortezomib Sun".data, "Bortezomib Hospira".data],
          (pySplit nm).length = k) ∨
       (∃ nm ∈ ["Bortezomib Sun".data, "Bortezomib Hospira".data],
          ((pySplit nm)[k]?).map pyLower ≠
            ((pySplit (["Bortezomib Sun".data, "Bortezomib Hospira".data].headD []))[k]?).map pyLower)) :=
  claim_C8_extract_common_name.2.2
    ["Bortezomib Sun".data, "Bortezomib Hospira".data] "Bortezomib".data (by decide)

/-! ## C7 and C10: `parse_date` -/

/-- A successful month lookup yields a two-digit month number (shared
helper). -/
theorem monthNum_two_digits (m v : List Char) (h : monthNum m = some v) :
    ∃ a b, v = [a, b] ∧ isDigitCh a = true ∧ isDigitCh b = true := by
  unfold monthNum at h
  cases hf : MONTHS.find? (fun p => p.1 = m) with
  | none =>
      rw [hf] at h
      exact Option.noConfusion h
  | some pr =>
      rw [hf] at h
      simp only [Option.map_some', Option.some.injEq] at h
      have hmem := List.mem_of_find?_eq_some hf
      have hall : ∀ q ∈ MONTHS, (match q.2 with
          | [a, b] => isDigitCh a && isDigitCh b
          | _ => false) = true := by decide
      have hq := hall pr hmem
      rcases pr with ⟨key, v2⟩
      rcases v2 with _ | ⟨a, _ | ⟨b, _ | ⟨c, t⟩⟩⟩
      · simp at hq
      · simp at hq
      · simp only [Bool.and_eq_true] at hq
        exact ⟨a, b, h.symm, hq.1, hq.2⟩
      · simp at hq
  
/-- Zero-filling a one- or two-digit day yields two digits (shared
helper). -/
theorem zfill2_digits (dy : List Char) (d1 : Char) (hd1 : isDigitCh d1 = true)
    (h : dy = [d1] ∨ ∃ d2, isDigitCh d2 = true ∧ dy = [d1, d2]) :
    ∃ a b, zfill2 dy = [a, b] ∧ isDigitCh a = true ∧ isDigitCh b = true := by
  rcases h with h | ⟨d2, hd2, h⟩
  · subst h
    exact ⟨'0', d1, rfl, by decide, hd1⟩
  · subst h
    exact ⟨d1, d2, rfl, hd1, hd2⟩

/-- Shape and consumption of the `YYYYMonDD` matcher (shared helper). -/
theorem matchAtA_spec : ∀ l y mo dy r, matchAtA l = some (y, mo, dy, r) →
    (∃ y1 y2 y3 y4, y = [y1, y2, y3, y4] ∧
      (isDigitCh y1 && isDigitCh y2 && isDigitCh y3 && isDigitCh y4) = true) ∧
    (∃ a b c, mo = [a, b, c] ∧ isMonthAbbrev a b c = true) ∧
    (∃ d1, isDigitCh d1 = true ∧
      (dy = [d1] ∨ ∃ d2, isDigitCh d2 = true ∧ dy = [d1, d2])) ∧
    l = y ++ mo ++ dy ++ r := by
  intro l y mo dy r h
  rw [matchAtA.eq_def] at h
  split at h
  · rename_i y1 y2 y3 y4 m1 m2 m3 d1 rest
    by_cases hc : (isDigitCh y1 && isDigitCh y2 && isDigitCh y3 && isDigitCh y4 &&
        isMonthAbbrev m1 m2 m3 && isDigitCh d1) = true
    · rw [if_pos hc] at h
      simp only [Bool.and_eq_true] at hc
      obtain ⟨⟨⟨⟨⟨hy1, hy2⟩, hy3⟩, hy4⟩, hm⟩, hd1⟩ := hc
      split at h
      · rename_i d2 rest2
        split at h
        · rename_i hd2
          simp only [Option.some.injEq, Prod.mk.injEq] at h
          obtain ⟨hy, hmo, hdy, hr⟩ := h
          subst hy
          subst hmo
          subst hdy
          subst hr
          exact ⟨⟨y1, y2, y3, y4, rfl, by simp [hy1, hy2, hy3, hy4]⟩,
            ⟨m1, m2, m3, rfl, hm⟩, ⟨d1, hd1, Or.inr ⟨d2, hd2, rfl⟩⟩, rfl⟩
        · simp only [Option.some.injEq, Prod.mk.injEq] at h
          obtain ⟨hy, hmo, hdy, hr⟩ := h
          subst hy
          subst hmo
          subst hdy
          subst hr
          exact ⟨⟨y1, y2, y3, y4, rfl, by simp [hy1, hy2, hy3, hy4]⟩,
            ⟨m1, m2, m3, rfl, hm⟩, ⟨d1, hd1, Or.inl rfl⟩, rfl⟩
      · simp only [Option.some.injEq, Prod.mk.injEq] at h
        obtain ⟨hy, hmo, hdy, hr⟩ := h
        subst hy
        subst hmo
        subst hdy
        subst hr
        exact ⟨⟨y1, y2, y3, y4, rfl, by simp [hy1, hy2, hy3, hy4]⟩,
          ⟨m1, m2, m3, rfl, hm⟩, ⟨d1, hd1, Or.inl rfl⟩, rfl⟩
    · rw [if_neg hc] at h
      exact Option.noConfusion h
  · exact Option.noConfusion h

/-- Shape and consumption of the month-plus-year tail matcher (shared
helper). -/
theorem matchMonYear_spec : ∀ l mo y r, matchMonYear l = some (mo, y, r) →
    (∃ a b c, mo = [a, b, c] ∧ isMonthAbbrev a b c = true) ∧
    (∃ y1 y2 y3 y4, y = [y1, y2, y3, y4] ∧
      (isDigitCh y1 && isDigitCh y2 && isDigitCh y3 && isDigitCh y4) = true) ∧
    l = mo ++ y ++ r := by
  intro l mo y r h
  rw [matchMonYear.eq_def] at h
  split at h
  · rename_i m1 m2 m3 y1 y2 y3 y4 rest
    by_cases hc : (isMonthAbbrev m1 m2 m3 && isDigitCh y1 && isDigitCh y2 &&
        isDigitCh y3 && isDigitCh y4) = true
    · rw [if_pos hc] at h
      simp only [Bool.and_eq_true] at hc
      obtain ⟨⟨⟨⟨hm, hy1⟩, hy2⟩, hy3⟩, hy4⟩ := hc
      simp only [Option.some.injEq, Prod.mk.injEq] at h
      obtain ⟨hmo, hy, hr⟩ := h
      subst hmo
      subst hy
      subst hr
      exact ⟨⟨m1, m2, m3, rfl, hm⟩,
        ⟨y1, y2, y3, y4, rfl, by simp [hy1, hy2, hy3, hy4]⟩, rfl⟩
    · rw [if_neg hc] at h
      exact Option.noConfusion h
  · exact Option.noConfusion h

/-- Shape and consumption of the `DDMonYYYY` matcher (shared helper). -/
theorem matchAtB_spec : ∀ l dy mo y r, matchAtB l = some (dy, mo, y, r) →
    (∃ y1 y2 y3 y4, y = [y1, y2, y3, y4] ∧
      (isDigitCh y1 && isDigitCh y2 && isDigitCh y3 && isDigitCh y4) = true) ∧
    (∃ a b c, mo = [a, b, c] ∧ isMonthAbbrev a b c = true) ∧
    (∃ d1, isDigitCh d1 = true ∧
      (dy = [d1] ∨ ∃ d2, isDigitCh d2 = true ∧ dy = [d1, d2])) ∧
    l = dy ++ mo ++ y ++ r := by
  intro l dy mo y r h
  rw [matchAtB.eq_def] at h
  split at h
  · rename_i d1 rest1
    split at h
    · rename_i hd1
      split at h
      · rename_i d2 rest2
        split at h
        · rename_i hd2
          split at h
          · rename_i res m yy rr hmy
            obtain ⟨hmo2, hy2, heq⟩ := matchMonYear_spec rest2 m yy rr hmy
            simp only [Option.some.injEq, Prod.mk.injEq] at h
            obtain ⟨hdy, hmo, hy, hr⟩ := h
            subst hdy
            subst hmo
            subst hy
            subst hr
            exact ⟨hy2, hmo2, ⟨d1, hd1, Or.inr ⟨d2, hd2, rfl⟩⟩, by rw [heq]; rfl⟩
          · rename_i hmyn
            split at h
            · rename_i res m yy rr hmy1
              obtain ⟨hmo2, hy2, heq⟩ := matchMonYear_spec (d2 :: rest2) m yy rr hmy1
              simp only [Option.some.injEq, Prod.mk.injEq] at h
              obtain ⟨hdy, hmo, hy, hr⟩ := h
              subst hdy
              subst hmo
              subst hy
              subst hr
              exact ⟨hy2, hmo2, ⟨d1, hd1, Or.inl rfl⟩, by rw [heq]; rfl⟩
            · exact Option.noConfusion h
        · split at h
          · rename_i res m yy rr hmy1
            obtain ⟨hmo2, hy2, heq⟩ := matchMonYear_spec (d2 :: rest2) m yy rr hmy1
            simp only [Option.some.injEq, Prod.mk.injEq] at h
            obtain ⟨hdy, hmo, hy, hr⟩ := h
            subst hdy
            subst hmo
            subst hy
            subst hr
            exact ⟨hy2, hmo2, ⟨d1, hd1, Or.inl rfl⟩, by rw [heq]; rfl⟩
          · exact Option.noConfusion h
      · exact Option.noConfusion h
    · exact Option.noConfusion h
  · exact Option.noConfusion h

/-- Shape and consumption of the `YYYY-MM-DD` matcher: the matched
substring is exactly the returned date, already in ISO shape (shared
helper). -/
theorem matchAtC_spec : ∀ l y m d r, matchAtC l = some (y, m, d, r) →
    isIsoShape (y ++ '-' :: m ++ '-' :: d) = true ∧
    l = (y ++ '-' :: m ++ '-' :: d) ++ r := by
  intro l y m d r h
  rw [matchAtC.eq_def] at h
  split at h
  · rename_i y1 y2 y3 y4 h1 m1 m2 h2 d1 d2 rest
    by_cases hc : (isDigitCh y1 && isDigitCh y2 && isDigitCh y3 && isDigitCh y4 &&
        h1 = '-' && isDigitCh m1 && isDigitCh m2 && h2 = '-' &&
        isDigitCh d1 && isDigitCh d2) = true
    · rw [if_pos hc] at h
      simp only [Option.some.injEq, Prod.mk.injEq] at h
      obtain ⟨hy, hm, hd, hr⟩ := h
      subst hy
      subst hm
      subst hd
      subst hr
      simp only [Bool.and_eq_true, decide_eq_true_eq] at hc
      obtain ⟨⟨⟨⟨⟨⟨⟨⟨⟨c1, c2⟩, c3⟩, c4⟩, c5⟩, c6⟩, c7⟩, c8⟩, c9⟩, c10⟩ := hc
      subst c5
      subst c8
      constructor
      · simp [isIsoShape, c1, c2, c3, c4, c6, c7, c9, c10]
      · rfl
    · rw [if_neg hc] at h
      exact Option.noConfusion h
  · exact Option.noConfusion h

/-- `reSearch` decomposition: a successful search splits the text into the
part before the match, the matched substring, and the part after (shared
helper; `hm` says the matcher consumes a prefix). -/
theorem reSearch_split
    (m : List Char → Option (List Char × List Char × List Char × List Char))
    (hm : ∀ l a b c r, m l = some (a, b, c, r) → ∃ mid, l = mid ++ r) :
    ∀ text pre g post, reSearch m text = some (pre, g, post) →
      ∃ mid, text = pre ++ mid ++ post ∧
        m (mid ++ post) = some (g.1, g.2.1, g.2.2, post) := by
  intro text
  induction text with
  | nil =>
      intro pre g post h
      rw [reSearch] at h
      cases hm0 : m [] with
      | none =>
          rw [hm0] at h
          exact Option.noConfusion h
      | some res =>
          obtain ⟨a, b, c, r⟩ := res
          rw [hm0] at h
          simp only [Option.some.injEq, Prod.mk.injEq] at h
          obtain ⟨hpre, hg, hpost⟩ := h
          obtain ⟨mid, hmid⟩ := hm [] a b c r hm0
          subst hpre
          subst hpost
          refine ⟨mid, by simpa using hmid, ?_⟩
          rw [← hmid, hm0, ← hg]
  | cons ch rest ih =>
      intro pre g post h
      rw [reSearch] at h
      cases hm0 : m (ch :: rest) with
      | some res =>
          obtain ⟨a, b, c, r⟩ := res
          rw [hm0] at h
          simp only [Option.some.injEq, Prod.mk.injEq] at h
          obtain ⟨hpre, hg, hpost⟩ := h
          obtain ⟨mid, hmid⟩ := hm (ch :: rest) a b c r hm0
          subst hpre
          subst hpost
          refine ⟨mid, by simpa using hmid, ?_⟩
          rw [← hmid, hm0, ← hg]
      | none =>
          rw [hm0] at h
          cases hrec : reSearch m rest with
          | none =>
              rw [hrec] at h
              exact Option.noConfusion h
          | some res2 =>
              obtain ⟨pre2, g2, post2⟩ := res2
              rw [hrec] at h
              simp only [Option.some.injEq, Prod.mk.injEq] at h
              obtain ⟨hpre, hg, hpost⟩ := h
              obtain ⟨mid, hmid1, hmid2⟩ := ih pre2 g2 post2 hrec
              subst hpre
              subst hpost
              subst hg
              exact ⟨mid, by rw [hmid1]; rfl, hmid2⟩

/-- **C7**: `parse_date` normalizes all three supported date formats to a
`YYYY-MM-DD` string: the spec's three concrete round-trip examples; in
general every parsed date has ISO shape and the matched date substring is
removed from the returned remaining text (which is then stripped); and an
input matching none of the three formats yields no date and the original
text. -/
theorem claim_C7_parse_date :
    parse_date "2019Dec31".data = (some "2019-12-31".data, []) ∧
    parse_date "31Dec2019".data = (some "2019-12-31".data, []) ∧
    parse_date "2019-12-31".data = (some "2019-12-31".data, []) ∧
    (∀ text d rem, parse_date text = (some d, rem) →
      isIsoShape d = true ∧
      ∃ pre mid post, text = pre ++ mid ++ post ∧ mid ≠ [] ∧
        rem = pyStrip (pre ++ post)) ∧
    (∀ text, reSearch matchAtA text = none → reSearch matchAtB text = none →
      reSearch matchAtC text = none → parse_date text = (none, text)) := by
  have hmA : ∀ l a b c r, matchAtA l = some (a, b, c, r) → ∃ mid, l = mid ++ r := by
    intro l a b c r hh
    obtain ⟨_, _, _, heq⟩ := matchAtA_spec l a b c r hh
    exact ⟨a ++ b ++ c, by simp [heq]⟩
  have hmB : ∀ l a b c r, matchAtB l = some (a, b, c, r) → ∃ mid, l = mid ++ r := by
    intro l a b c r hh
    obtain ⟨_, _, _, heq⟩ := matchAtB_spec l a b c r hh
    exact ⟨a ++ b ++ c, by simp [heq]⟩
  have hmC : ∀ l a b c r, matchAtC l = some (a, b, c, r) → ∃ mid, l = mid ++ r := by
    intro l a b c r hh
    obtain ⟨_, heq⟩ := matchAtC_spec l a b c r hh
    exact ⟨a ++ '-' :: b ++ '-' :: c, heq⟩
  have hmonth : ∀ a b c, isMonthAbbrev a b c = true →
      ∃ p q, monthNum (pyLower [a, b, c]) = some [p, q] ∧
        isDigitCh p = true ∧ isDigitCh q = true := by
    intro a b c hab
    unfold isMonthAbbrev at hab
    rcases ho : MONTHS.find? (fun pr => pr.1 = pyLower [a, b, c]) with _ | pr
    · rw [ho] at hab
      simp at hab
    · have hv : monthNum (pyLower [a, b, c]) = some pr.2 := by
        unfold monthNum
        rw [ho]
        rfl
      obtain ⟨p, q, hpq, hp, hq⟩ := monthNum_two_digits _ pr.2 hv
      exact ⟨p, q, by rw [hv, hpq], hp, hq⟩
  refine ⟨by decide, by decide, by decide, ?_, ?_⟩
  · intro text d rem h
    unfold parse_date at h
    cases hA : reSearch matchAtA text with
    | some res =>
        obtain ⟨pre, ⟨y, mo, dy⟩, post⟩ := res
        rw [hA] at h
        simp only [Prod.mk.injEq, Option.some.injEq] at h
        obtain ⟨hd, hrem⟩ := h
        obtain ⟨mid, htext, hmatch⟩ := reSearch_split matchAtA hmA text pre (y, mo, dy) post hA
        obtain ⟨⟨y1, y2, y3, y4, hy, hydig⟩, ⟨a, b, c, hmo, hab⟩, ⟨d1, hd1, hdy⟩, heq⟩ :=
          matchAtA_spec (mid ++ post) y mo dy post hmatch
        have hmid : mid = y ++ mo ++ dy := by
          have h2 : mid ++ post = (y ++ mo ++ dy) ++ post := by simp [heq]
          exact List.append_cancel_right h2
        obtain ⟨p, q, hv, hp, hq⟩ := hmonth a b c hab
        obtain ⟨e1, e2, hz, he1, he2⟩ := zfill2_digits dy d1 hd1 hdy
        constructor
        · rw [← hd, hy, hmo, hv, hz]
          simp only [Option.getD_some]
          simp only [Bool.and_eq_true] at hydig
          simp [isIsoShape, hydig.1.1.1, hydig.1.1.2, hydig.1.2, hydig.2,
            hp, hq, he1, he2]
        · refine ⟨pre, mid, post, htext, ?_, hrem.symm⟩
          rw [hmid, hy]
          simp
    | none =>
      rw [hA] at h
      cases hB : reSearch matchAtB text with
      | some res =>
          obtain ⟨pre, ⟨dy, mo, y⟩, post⟩ := res
          rw [hB] at h
          simp only [Prod.mk.injEq, Option.some.injEq] at h
          obtain ⟨hd, hrem⟩ := h
          obtain ⟨mid, htext, hmatch⟩ := reSearch_split matchAtB hmB text pre (dy, mo, y) post hB
          obtain ⟨⟨y1, y2, y3, y4, hy, hydig⟩, ⟨a, b, c, hmo, hab⟩, ⟨d1, hd1, hdy⟩, heq⟩ :=
            matchAtB_spec (mid ++ post) dy mo y post hmatch
          have hmid : mid = dy ++ mo ++ y := by
            have h2 : mid ++ post = (dy ++ mo ++ y) ++ post := by simp [heq]
            exact List.append_cancel_right h2
          obtain ⟨p, q, hv, hp, hq⟩ := hmonth a b c hab
          obtain ⟨e1, e2, hz, he1, he2⟩ := zfill2_digits dy d1 hd1 hdy
          constructor
          · rw [← hd, hy, hmo, hv, hz]
            simp only [Option.getD_some]
            simp only [Bool.and_eq_true] at hydig
            simp [isIsoShape, hydig.1.1.1, hydig.1.1.2, hydig.1.2, hydig.2,
              hp, hq, he1, he2]
          · refine ⟨pre, mid, post, htext, ?_, hrem.symm⟩
            rw [hmid]
            rcases hdy with h1 | ⟨d2, _, h2⟩
            · rw [h1]
              simp
            · rw [h2]
              simp
      | none =>
        rw [hB] at h
        cases hC : reSearch matchAtC text with
        | some res =>
            obtain ⟨pre, ⟨y, mm, dd⟩, post⟩ := res
            rw [hC] at h
            simp only [Prod.mk.injEq, Option.some.injEq] at h
            obtain ⟨hd, hrem⟩ := h
            obtain ⟨mid, htext, hmatch⟩ := reSearch_split matchAtC hmC text pre (y, mm, dd) post hC
            obtain ⟨hiso, heq⟩ := matchAtC_spec (mid ++ post) y mm dd post hmatch
            have hmid : mid = y ++ '-' :: mm ++ '-' :: dd := by
              have h2 : mid ++ post = (y ++ '-' :: mm ++ '-' :: dd) ++ post := by
                simp [heq]
              exact List.append_cancel_right h2
            constructor
            · rw [← hd]
              exact hiso
            · refine ⟨pre, mid, post, htext, ?_, hrem.symm⟩
              rw [hmid]
              obtain ⟨hiso2, -⟩ := matchAtC_spec (mid ++ post) y mm dd post hmatch
              cases y with
              | nil => simp
              | cons c0 t => simp
        | none =>
            rw [hC] at h
            simp only [Prod.mk.injEq] at h
            exact Option.noConfusion h.1
  · intro text hA hB hC
    unfold parse_date
    rw [hA, hB, hC]

/-- Witness for `claim_C7_parse_date`'s general clause at a concrete
input. -/
theorem claim_C7_witness :
    isIsoShape "2020-01-05".data = true ∧
    ∃ pre mid post, "x 2020Jan5".data = pre ++ mid ++ post ∧ mid ≠ [] ∧
      "x".data = pyStrip (pre ++ post) :=
  claim_C7_parse_date.2.2.2.1 "x 2020Jan5".data "2020-01-05".data "x".data (by decide)

/-- **C10**: `parse_date` performs no calendar-range validation for the
`YYYY-MM-DD` pattern: the spec's concrete example, and in general whenever
neither `YYYYMonDD` nor `DDMonYYYY` matches but the digit-shape pattern
does, the matched substring is returned verbatim as the parsed date (the
text splits as `before ++ date ++ after`), however impossible the month
and day fields are. -/
theorem claim_C10_no_calendar_validation :
    parse_date "report 2021-99-99".data = (some "2021-99-99".data, "report".data) ∧
    (∀ text pre y m d post,
      reSearch matchAtA text = none → reSearch matchAtB text = none →
      reSearch matchAtC text = some (pre, (y, m, d), post) →
      parse_date text = (some (y ++ '-' :: m ++ '-' :: d), pyStrip (pre ++ post)) ∧
      text = pre ++ (y ++ '-' :: m ++ '-' :: d) ++ post) := by
  refine ⟨by decide, ?_⟩
  intro text pre y m d post hA hB hC
  have hmC : ∀ l a b c r, matchAtC l = some (a, b, c, r) → ∃ mid, l = mid ++ r := by
    intro l a b c r hh
    obtain ⟨_, heq⟩ := matchAtC_spec l a b c r hh
    exact ⟨a ++ '-' :: b ++ '-' :: c, heq⟩
  constructor
  · unfold parse_date
    rw [hA, hB, hC]
  · obtain ⟨mid, htext, hmatch⟩ := reSearch_split matchAtC hmC text pre (y, m, d) post hC
    obtain ⟨-, heq⟩ := matchAtC_spec (mid ++ post) y m d post hmatch
    have hmid : mid = y ++ '-' :: m ++ '-' :: d := by
      have h2 : mid ++ post = (y ++ '-' :: m ++ '-' :: d) ++ post := by simp [heq]
      exact List.append_cancel_right h2
    rw [htext, hmid]

/-- Witness for `claim_C10_no_calendar_validation`'s general clause at the
spec's concrete input. -/
theorem claim_C10_witness :
    parse_date "report 2021-99-99".data =
      (some ("2021".data ++ '-' :: "99".data ++ '-' :: "99".data),
        pyStrip ("report ".data ++ [])) ∧
    "report 2021-99-99".data =
      "report ".data ++ ("2021".data ++ '-' :: "99".data ++ '-' :: "99".data) ++ [] :=
  claim_C10_no_calendar_validation.2 "report 2021-99-99".data "report ".data
    "2021".data "99".data "99".data [] (by decide) (by decide) (by decide)

/-! ## C2 and C6: the CTD key path as a chain of dotted prefixes -/

/-- Taking the length of the left part of an append returns it (shared
helper). -/
theorem take_len_append (a r : List Char) : (a ++ r).take a.length = a := by
  induction a with
  | nil => rfl
  | cons x t ih => simpa using ih

/-- Indexing right past the left part of an append (shared helper). -/
theorem getElem_len_append (a : List Char) (c : Char) (r : List Char) :
    (a ++ c :: r)[a.length]? = some c := by
  induction a with
  | nil => simp
  | cons x t ih => simpa using ih

/-- Dropping one past the left part of an append (shared helper). -/
theorem drop_len_succ_append (a : List Char) (c : Char) (r : List Char) :
    (a ++ c :: r).drop (a.length + 1) = r := by
  induction a with
  | nil => rfl
  | cons x t ih => simpa using ih

/-- Appending a dot and one segment is a chain step (shared helper). -/
theorem isChainStepB_append (a p : List Char) (hp : isSegB p = true) :
    isChainStepB a (a ++ '.' :: p) = true := by
  unfold isChainStepB
  rw [take_len_append, getElem_len_append, drop_len_succ_append]
  simp [hp]

/-- The accumulation loop of `build_components` produces a chain from any
nonempty current prefix (shared helper). -/
theorem chainFromB_buildAux : ∀ (parts : List (List Char)) (cur : List Char),
    cur ≠ [] → (∀ p ∈ parts, isSegB p = true) →
    chainFromB cur (buildAux parts cur) = true := by
  intro parts
  induction parts with
  | nil =>
      intro cur _ _
      rfl
  | cons p ps ih =>
      intro cur hcur hall
      rw [buildAux, if_neg hcur, chainFromB, Bool.and_eq_true]
      constructor
      · exact isChainStepB_append cur p (hall p (List.mem_cons_self p ps))
      · exact ih (cur ++ '.' :: p) (by simp)
          (fun q hq => hall q (List.mem_cons_of_mem p hq))

/-- `build_components`' expansion of segments is a prefix chain (shared
helper). -/
theorem isPrefixChainB_buildAux (parts : List (List Char))
    (hall : ∀ p ∈ parts, isSegB p = true) :
    isPrefixChainB (buildAux parts []) = true := by
  cases parts with
  | nil => rfl
  | cons p ps =>
      rw [buildAux, if_pos rfl, isPrefixChainB, Bool.and_eq_true]
      have hp := hall p (List.mem_cons_self p ps)
      refine ⟨hp, ?_⟩
      have hpne : p ≠ [] := by
        unfold isSegB at hp
        rw [Bool.and_eq_true, decide_eq_true_eq, decide_eq_true_eq] at hp
        exact hp.1
      exact chainFromB_buildAux ps p hpne
        (fun q hq => hall q (List.mem_cons_of_mem p hq))

/-- A dot-free list splits as itself (shared helper). -/
theorem splitOnDot_nodot (x : List Char) (hx : '.' ∉ x) : splitOnDot x = [x] := by
  induction x with
  | nil => rfl
  | cons c t ih =>
      rw [splitOnDot]
      have hc : ¬(c = '.') := by
        intro h
        exact hx (h ▸ List.mem_cons_self c t)
      rw [if_neg hc, ih (fun h => hx (List.mem_cons_of_mem c h))]

/-- Splitting after a dot-free head component (shared helper). -/
theorem splitOnDot_append_dot (x : List Char) (hx : '.' ∉ x) (rest : List Char) :
    splitOnDot (x ++ '.' :: rest) = x :: splitOnDot rest := by
  induction x with
  | nil => simp [splitOnDot]
  | cons c t ih =>
      have hc : ¬(c = '.') := by
        intro h
        exact hx (h ▸ List.mem_cons_self c t)
      rw [List.cons_append, splitOnDot, if_neg hc,
        ih (fun h => hx (List.mem_cons_of_mem c h))]

/-- `joinDots` of a cons is the head plus the dotted tail (shared
helper). -/
theorem joinDots_cons : ∀ (c : List Char) (gs : List (List Char)),
    joinDots (c :: gs) = c ++ dotJoin gs := by
  intro c gs
  induction gs generalizing c with
  | nil => simp [joinDots, dotJoin]
  | cons g gs' ih =>
      rw [joinDots, dotJoin, ih g]
      simp

/-- Splitting `joinDots` recovers the dot-free components (shared
helper). -/
theorem splitOnDot_joinDots : ∀ (cs : List (List Char)), cs ≠ [] →
    (∀ c ∈ cs, '.' ∉ c) → splitOnDot (joinDots cs) = cs := by
  intro cs
  induction cs with
  | nil =>
      intro h _
      exact absurd rfl h
  | cons c cs' ih =>
      intro _ hall
      cases cs' with
      | nil =>
          rw [joinDots]
          exact splitOnDot_nodot c (hall c (List.mem_cons_self c []))
      | cons c2 cs'' =>
          rw [joinDots_cons, dotJoin, show c ++ '.' :: (c2 ++ dotJoin cs'') =
              c ++ '.' :: joinDots (c2 :: cs'') from by rw [joinDots_cons],
            splitOnDot_append_dot c (hall c (List.mem_cons_self c _)),
            ih (by simp) (fun q hq => hall q (List.mem_cons_of_mem c hq))]

/-- Every run collected by the digit-run scanner is a nonempty digit run
(shared helper). -/
theorem numGroupsRun_segs : ∀ (acc l : List Char), acc ≠ [] →
    (∀ ch ∈ acc, isDigitCh ch = true) →
    ∀ g ∈ (numGroupsRun acc l).1, g ≠ [] ∧ ∀ ch ∈ g, isDigitCh ch = true := by
  intro acc l
  induction acc, l using numGroupsRun.induct with
  | case1 acc =>
      intro hne hdig g hg
      rw [numGroupsRun] at hg
      simp only [List.mem_singleton] at hg
      subst hg
      refine ⟨by simpa using hne, ?_⟩
      intro ch hch
      exact hdig ch (by simpa using hch)
  | case2 acc c hdigc =>
      intro hne hdig g hg
      rw [numGroupsRun, if_pos hdigc] at hg
      simp only [List.mem_singleton] at hg
      subst hg
      refine ⟨by simp, ?_⟩
      intro ch hch
      simp only [List.mem_reverse, List.mem_cons] at hch
      rcases hch with h | h
      · exact h ▸ hdigc
      · exact hdig ch h
  | case3 acc c hdigc =>
      intro hne hdig g hg
      rw [numGroupsRun, if_neg hdigc] at hg
      simp only [List.mem_singleton] at hg
      subst hg
      refine ⟨by simpa using hne, ?_⟩
      intro ch hch
      exact hdig ch (by simpa using hch)
  | case4 acc c d rest hdigc ih =>
      intro hne hdig g hg
      rw [numGroupsRun, if_pos hdigc] at hg
      refine ih (by simp) ?_ g hg
      intro ch hch
      rcases List.mem_cons.mp hch with h | h
      · exact h ▸ hdigc
      · exact hdig ch h
  | case5 acc c d rest hdigc hdot ih =>
      intro hne hdig g hg
      rw [numGroupsRun, if_neg hdigc, if_pos hdot] at hg
      simp only [List.mem_cons] at hg
      rcases hg with h | h
      · subst h
        refine ⟨by simpa using hne, ?_⟩
        intro ch hch
        exact hdig ch (by simpa using hch)
      · refine ih (by simp) ?_ g h
        intro ch hch
        simp only [List.mem_singleton] at hch
        subst hch
        simp only [Bool.and_eq_true, decide_eq_true_eq] at hdot
        exact hdot.2
  | case6 acc c d rest hdigc hdot =>
      intro hne hdig g hg
      rw [numGroupsRun, if_neg hdigc, if_neg hdot] at hg
      simp only [List.mem_singleton] at hg
      subst hg
      refine ⟨by simpa using hne, ?_⟩
      intro ch hch
      exact hdig ch (by simpa using hch)

/-- Every group returned by `numGroups` is a nonempty digit run, hence a
segment (shared helper). -/
theorem numGroups_segs (l : List Char) :
    ∀ g ∈ (numGroups l).1, isSegB g = true := by
  intro g hg
  have hseg : g ≠ [] ∧ ∀ ch ∈ g, isDigitCh ch = true := by
    rw [numGroups.eq_def] at hg
    split at hg
    · rename_i d rest
      split at hg
      · rename_i hd
        exact numGroupsRun_segs [d] rest (by simp) (by simpa using hd) g hg
      · simp at hg
    · simp at hg
  obtain ⟨h1, h2⟩ := hseg
  unfold isSegB
  rw [Bool.and_eq_true, decide_eq_true_eq, decide_eq_true_eq]
  refine ⟨h1, ?_⟩
  intro hdot
  have := h2 '.' hdot
  simp [isDigitCh] at this

/-- Every component returned by the CTD-code matcher is a segment, and the
component list is nonempty (shared helper). -/
theorem matchCTDCode_segs (ic : Bool) (l : List Char) (comps : List (List Char))
    (r : List Char) (h : matchCTDCode ic l = some (comps, r)) :
    comps ≠ [] ∧ ∀ c ∈ comps, isSegB c = true := by
  rw [matchCTDCode.eq_def] at h
  split at h
  · rename_i c rest
    split at h
    · rename_i hc15
      simp only [] at h
      have hcseg : isSegB [c] = true := by
        unfold isSegB
        rw [Bool.and_eq_true, decide_eq_true_eq, decide_eq_true_eq]
        refine ⟨by simp, ?_⟩
        intro hdot
        simp only [List.mem_singleton] at hdot
        subst hdot
        simp [isDigit15] at hc15
      split at h
      · rename_i d r2 hng
        split at h
        · rename_i hlet
          simp only [Option.some.injEq, Prod.mk.injEq] at h
          obtain ⟨hcomps, hr⟩ := h
          subst hcomps
          refine ⟨by simp, ?_⟩
          intro q hq
          simp only [List.mem_append, List.mem_cons] at hq
          rcases hq with (hq | hq) | (hq | hq)
          · subst hq
            exact hcseg
          · exact numGroups_segs rest q hq
          · subst hq
            unfold isSegB
            rw [Bool.and_eq_true, decide_eq_true_eq, decide_eq_true_eq]
            refine ⟨by simp, ?_⟩
            intro hdot
            simp only [List.mem_singleton] at hdot
            subst hdot
            unfold isLetterAZ at hlet
            cases ic <;> simp_all
          · exact numGroups_segs r2 q hq
        · simp only [Option.some.injEq, Prod.mk.injEq] at h
          obtain ⟨hcomps, hr⟩ := h
          subst hcomps
          refine ⟨by simp, ?_⟩
          intro q hq
          rcases List.mem_cons.mp hq with hq | hq
          · subst hq
            exact hcseg
          · exact numGroups_segs rest q hq
      · simp only [Option.some.injEq, Prod.mk.injEq] at h
        obtain ⟨hcomps, hr⟩ := h
        subst hcomps
        refine ⟨by simp, ?_⟩
        intro q hq
        rcases List.mem_cons.mp hq with hq | hq
        · subst hq
          exact hcseg
        · exact numGroups_segs rest q hq
    · exact Option.noConfusion h
  · exact Option.noConfusion h

/-- A segment's component facts (shared helper). -/
theorem isSegB_facts (c : List Char) (h : isSegB c = true) :
    c ≠ [] ∧ '.' ∉ c := by
  unfold isSegB at h
  rw [Bool.and_eq_true, decide_eq_true_eq, decide_eq_true_eq] at h
  exact h

/-- `build_components` of rejoined segments yields a prefix chain (shared
helper). -/
theorem build_components_chain (cs : List (List Char)) (hne : cs ≠ [])
    (hall : ∀ c ∈ cs, isSegB c = true) :
    ∃ out, build_components (joinDots cs) false = some out ∧
      isPrefixChainB out = true := by
  have hnodot : ∀ c ∈ cs, '.' ∉ c := fun c hc => (isSegB_facts c (hall c hc)).2
  unfold build_components
  simp only []
  rw [splitOnDot_joinDots cs hne hnodot]
  cases hb : buildAux cs [] with
  | nil =>
      cases cs with
      | nil => exact absurd rfl hne
      | cons p ps =>
          rw [buildAux] at hb
          exact absurd hb (by simp)
  | cons c0 rest =>
      refine ⟨c0 :: rest, ?_, ?_⟩
      · simp
      · rw [← hb]
        exact isPrefixChainB_buildAux cs hall

/-- `build_components` in CSR-appendix mode on a `16` code: the fixed
module-5 path is prepended to the 16-code's own prefix chain (shared
helper). -/
theorem build_components_16 (gs : List (List Char)) (hne : gs ≠ [])
    (hall : ∀ g ∈ gs, isSegB g = true) :
    ∃ tail, build_components (joinDots (['1', '6'] :: gs)) true =
        some ("5".data :: "5.3".data :: "5.3.5".data :: tail) ∧
      isPrefixChainB tail = true ∧ tail.head? = some "16".data := by
  have hall2 : ∀ c ∈ ['1', '6'] :: gs, isSegB c = true := by
    intro c hc
    rcases List.mem_cons.mp hc with h | h
    · subst h
      decide
    · exact hall c h
  have hnodot : ∀ c ∈ ['1', '6'] :: gs, '.' ∉ c :=
    fun c hc => (isSegB_facts c (hall2 c hc)).2
  unfold build_components
  simp only []
  rw [splitOnDot_joinDots _ (by simp) hnodot]
  rw [buildAux, if_pos rfl]
  refine ⟨['1', '6'] :: buildAux gs ['1', '6'], ?_, ?_, rfl⟩
  · simp [List.isPrefixOf]
  · rw [isPrefixChainB, Bool.and_eq_true]
    exact ⟨by decide, chainFromB_buildAux gs ['1', '6'] (by simp) hall⟩

/-- Pattern 1's components are segments (shared helper). -/
theorem matchP1_segs (base : List Char) (cmp : List (List Char)) (t : List Char)
    (h : matchP1 base = some (cmp, t)) :
    cmp ≠ [] ∧ ∀ c ∈ cmp, isSegB c = true := by
  unfold matchP1 at h
  cases hstrip : stripCi "module".data base with
  | none =>
      rw [hstrip] at h
      exact Option.noConfusion h
  | some r0 =>
      rw [hstrip] at h
      simp only [] at h
      by_cases hm : (r0.takeWhile isSpaceCh).length = 0
      · rw [if_pos hm] at h
        exact Option.noConfusion h
      · rw [if_neg hm] at h
        cases hcode : matchCTDCode true (r0.drop (r0.takeWhile isSpaceCh).length) with
        | none =>
            rw [hcode] at h
            exact Option.noConfusion h
        | some pr =>
            obtain ⟨cmp2, r1⟩ := pr
            rw [hcode] at h
            simp only [] at h
            cases hws : wsTitle r1 with
            | none =>
                rw [hws] at h
                simp at h
            | some title =>
                rw [hws] at h
                simp only [Option.some.injEq, Prod.mk.injEq] at h
                obtain ⟨h1, h2⟩ := h
                subst h1
                exact matchCTDCode_segs true _ cmp2 r1 hcode

/-- `p2Tail`'s components are segments (shared helper). -/
theorem p2Tail_segs (l : List Char) (cmp : List (List Char)) (r : List Char)
    (h : p2Tail l = some (cmp, r)) :
    cmp ≠ [] ∧ ∀ c ∈ cmp, isSegB c = true := by
  unfold p2Tail at h
  simp only [] at h
  by_cases hm : (l.takeWhile isSpaceCh).length = 0
  · rw [if_pos hm] at h
    exact Option.noConfusion h
  · rw [if_neg hm] at h
    cases hstrip : stripCi "module".data (l.drop (l.takeWhile isSpaceCh).length) with
    | none =>
        rw [hstrip] at h
        exact Option.noConfusion h
    | some r0 =>
        rw [hstrip] at h
        simp only [] at h
        by_cases hm2 : (r0.takeWhile isSpaceCh).length = 0
        · rw [if_pos hm2] at h
          exact Option.noConfusion h
        · rw [if_neg hm2] at h
          exact matchCTDCode_segs true _ cmp r h

/-- Pattern 2's components are segments (shared helper). -/
theorem p2Scan_segs : ∀ (l acc t1 : List Char) (cmp : List (List Char))
    (t2 : List Char), p2Scan acc l = some (t1, cmp, t2) →
    cmp ≠ [] ∧ ∀ c ∈ cmp, isSegB c = true := by
  intro l
  induction l with
  | nil =>
      intro acc t1 cmp t2 h
      exact Option.noConfusion h
  | cons c rest ih =>
      intro acc t1 cmp t2 h
      rw [p2Scan] at h
      cases hpt : p2Tail rest with
      | none =>
          rw [hpt] at h
          exact ih (acc ++ [c]) t1 cmp t2 h
      | some pr =>
          obtain ⟨cmp2, r⟩ := pr
          rw [hpt] at h
          simp only [Option.some.injEq, Prod.mk.injEq] at h
          obtain ⟨h1, h2, h3⟩ := h
          subst h2
          exact p2Tail_segs rest cmp2 r hpt

/-- Pattern 3's components are segments (shared helper). -/
theorem matchP3_segs (base : List Char) (cmp : List (List Char)) (t : List Char)
    (h : matchP3 base = some (cmp, t)) :
    cmp ≠ [] ∧ ∀ c ∈ cmp, isSegB c = true := by
  unfold matchP3 at h
  cases hcode : matchCTDCode false base with
  | none =>
      rw [hcode] at h
      exact Option.noConfusion h
  | some pr =>
      obtain ⟨cmp2, r⟩ := pr
      rw [hcode] at h
      simp only [] at h
      cases hws : wsTitle r with
      | none =>
          rw [hws] at h
          simp at h
      | some title =>
          rw [hws] at h
          simp only [Option.some.injEq, Prod.mk.injEq] at h
          obtain ⟨h1, h2⟩ := h
          subst h1
          exact matchCTDCode_segs false base cmp2 r hcode

/-- Pattern 3b's components: the `16` head followed by nonempty digit-run
segments (shared helper). -/
theorem matchP3b_shape (base : List Char) (cmp : List (List Char)) (t : List Char)
    (h : matchP3b base = some (cmp, t)) :
    ∃ gs, cmp = ['1', '6'] :: gs ∧ gs ≠ [] ∧ ∀ g ∈ gs, isSegB g = true := by
  rw [matchP3b.eq_def] at h
  split at h
  · rename_i rest
    simp only [] at h
    by_cases hne : (numGroups rest).1 = []
    · rw [if_pos hne] at h
      exact Option.noConfusion h
    · rw [if_neg hne] at h
      cases hws : wsTitle (numGroups rest).2 with
      | none =>
          rw [hws] at h
          simp at h
      | some title =>
          rw [hws] at h
          simp only [Option.some.injEq, Prod.mk.injEq] at h
          obtain ⟨h1, h2⟩ := h
          subst h1
          exact ⟨(numGroups rest).1, rfl, hne, fun g hg => numGroups_segs rest g hg⟩
  · exact Option.noConfusion h

/-- Pattern 4's components are segments (shared helper). -/
theorem matchP4_segs (fn : List Char) (cmp : List (List Char)) (t : List Char)
    (h : matchP4 fn = some (cmp, t)) :
    cmp ≠ [] ∧ ∀ c ∈ cmp, isSegB c = true := by
  unfold matchP4 at h
  cases hcode : matchCTDCode true fn with
  | none =>
      rw [hcode] at h
      exact Option.noConfusion h
  | some pr =>
      obtain ⟨cmp2, r⟩ := pr
      rw [hcode] at h
      obtain ⟨hne2, hsegs2⟩ := matchCTDCode_segs true fn cmp2 r hcode
      have hdrop : 2 ≤ cmp2.length →
          cmp2.dropLast ≠ [] ∧ ∀ c ∈ cmp2.dropLast, isSegB c = true := by
        intro hlen
        constructor
        · intro hnil
          have := congrArg List.length hnil
          rw [List.length_dropLast] at this
          simp at this
          omega
        · intro c hc
          exact hsegs2 c ((List.dropLast_sublist cmp2).subset hc)
      cases r with
      | cons sep rest =>
          simp only [] at h
          split at h
          · simp only [Option.some.injEq, Prod.mk.injEq] at h
            obtain ⟨h1, h2⟩ := h
            subst h1
            exact ⟨hne2, hsegs2⟩
          · split at h
            · rename_i hlen
              simp only [Option.some.injEq, Prod.mk.injEq] at h
              obtain ⟨h1, h2⟩ := h
              subst h1
              exact hdrop hlen
            · exact Option.noConfusion h
      | nil =>
          simp only [] at h
          split at h
          · rename_i hlen
            simp only [Option.some.injEq, Prod.mk.injEq] at h
            obtain ⟨h1, h2⟩ := h
            subst h1
            exact hdrop hlen
          · exact Option.noConfusion h

/-- C2 counterexample: the filename `"16.2.1 Discontinued Patients.pdf"` is
matched by the supported module-16 CTD pattern, yet the returned key path
`["5", "5.3", "5.3.5", "16", "16.2", "16.2.1"]` is not a strictly
increasing chain of prefixes of one classification code: the step from
`"5.3.5"` to `"16"` is not the previous segment plus one more
dot-delimited component. -/
theorem claim_C2_counterexample :
    (parse_ctd_info "16.2.1 Discontinued Patients.pdf".data none).1 =
      some ["5".data, "5.3".data, "5.3.5".data, "16".data, "16.2".data,
        "16.2.1".data] ∧
    isPrefixChainB ["5".data, "5.3".data, "5.3.5".data, "16".data, "16.2".data,
      "16.2.1".data] = false := by
  constructor
  · decide
  · decide

/-- C2 (amended): whenever `parse_ctd_info` returns a key path, that path
is either a strictly increasing chain of dotted prefixes, or — for the
module-16 CSR-appendix remap — the fixed path `["5", "5.3", "5.3.5"]`
followed by such a chain whose first segment is `"16"`. -/
theorem claim_C2_key_path_chain (filename : List Char) (accession : Option String)
    (comps : List (List Char)) (nm : Option (List Char))
    (h : parse_ctd_info filename accession = (some comps, nm)) :
    isPrefixChainB comps = true ∨
      ∃ tail, comps = ["5".data, "5.3".data, "5.3.5".data] ++ tail ∧
        isPrefixChainB tail = true ∧ tail.head? = some "16".data := by
  unfold parse_ctd_info at h
  cases hmm : (if accession = some "RDCP-26-0003" then manualMatch filename
      else none) with
  | some res =>
      rw [hmm] at h
      simp only [] at h
      subst h
      by_cases hacc : accession = some "RDCP-26-0003"
      · rw [if_pos hacc] at hmm
        unfold manualMatch at hmm
        split at hmm
        · simp only [Option.some.injEq, Prod.mk.injEq] at hmm
          obtain ⟨h1, h2⟩ := hmm
          subst h1
          left
          decide
        · split at hmm
          · simp only [Option.some.injEq, Prod.mk.injEq] at hmm
            obtain ⟨h1, h2⟩ := hmm
            subst h1
            left
            decide
          · split at hmm
            · simp only [Option.some.injEq, Prod.mk.injEq] at hmm
              obtain ⟨h1, h2⟩ := hmm
              subst h1
              left
              decide
            · split at hmm
              · simp only [Option.some.injEq, Prod.mk.injEq] at hmm
                obtain ⟨h1, h2⟩ := hmm
                subst h1
                left
                decide
              · split at hmm
                · simp only [Option.some.injEq, Prod.mk.injEq] at hmm
                  obtain ⟨h1, h2⟩ := hmm
                  subst h1
                  left
                  decide
                · exact Option.noConfusion hmm
      · rw [if_neg hacc] at hmm
        exact Option.noConfusion hmm
  | none =>
      rw [hmm] at h
      simp only [] at h
      cases hp1 : matchP1 (splitStemExt filename).1 with
      | some pr =>
          obtain ⟨cmp, title⟩ := pr
          rw [hp1] at h
          simp only [] at h
          obtain ⟨hne, hsegs⟩ := matchP1_segs _ cmp title hp1
          obtain ⟨out, hout, hchain⟩ := build_components_chain cmp hne hsegs
          rw [hout] at h
          simp only [Prod.mk.injEq, Option.some.injEq] at h
          obtain ⟨h1, h2⟩ := h
          subst h1
          exact Or.inl hchain
      | none =>
      rw [hp1] at h
      simp only [] at h
      cases hp2 : matchP2 (splitStemExt filename).1 with
      | some tr =>
          obtain ⟨t1, cmp, t2⟩ := tr
          rw [hp2] at h
          simp only [] at h
          have hp2' : p2Scan [] (splitStemExt filename).1 = some (t1, cmp, t2) := hp2
          obtain ⟨hne, hsegs⟩ := p2Scan_segs _ [] t1 cmp t2 hp2'
          obtain ⟨out, hout, hchain⟩ := build_components_chain cmp hne hsegs
          rw [hout] at h
          simp only [Prod.mk.injEq, Option.some.injEq] at h
          obtain ⟨h1, h2⟩ := h
          subst h1
          exact Or.inl hchain
      | none =>
      rw [hp2] at h
      simp only [] at h
      cases hp3 : matchP3 (splitStemExt filename).1 with
      | some pr =>
          obtain ⟨cmp, title⟩ := pr
          rw [hp3] at h
          simp only [] at h
          obtain ⟨hne, hsegs⟩ := matchP3_segs _ cmp title hp3
          obtain ⟨out, hout, hchain⟩ := build_components_chain cmp hne hsegs
          rw [hout] at h
          simp only [Prod.mk.injEq, Option.some.injEq] at h
          obtain ⟨h1, h2⟩ := h
          subst h1
          exact Or.inl hchain
      | none =>
      rw [hp3] at h
      simp only [] at h
      cases hp3b : matchP3b (splitStemExt filename).1 with
      | some pr =>
          obtain ⟨cmp, title⟩ := pr
          rw [hp3b] at h
          simp only [] at h
          obtain ⟨gs, hcmp, hgne, hgsegs⟩ := matchP3b_shape _ cmp title hp3b
          subst hcmp
          obtain ⟨tail, hout, hchain, hhead⟩ := build_components_16 gs hgne hgsegs
          rw [hout] at h
          simp only [Prod.mk.injEq, Option.some.injEq] at h
          obtain ⟨h1, h2⟩ := h
          subst h1
          right
          exact ⟨tail, rfl, hchain, hhead⟩
      | none =>
      rw [hp3b] at h
      simp only [] at h
      cases hp4 : matchP4 filename with
      | some pr =>
          obtain ⟨cmp, rest⟩ := pr
          rw [hp4] at h
          simp only [] at h
          obtain ⟨hne, hsegs⟩ := matchP4_segs _ cmp rest hp4
          obtain ⟨out, hout, hchain⟩ := build_components_chain cmp hne hsegs
          rw [hout] at h
          simp only [Prod.mk.injEq, Option.some.injEq] at h
          obtain ⟨h1, h2⟩ := h
          subst h1
          exact Or.inl hchain
      | none =>
      rw [hp4] at h
      simp only [Prod.mk.injEq] at h
      exact Option.noConfusion h.1

/-- C2 witness: `"3.2.P.1 description.pdf"` parses to the key path
`["3", "3.2", "3.2.P", "3.2.P.1"]`, which the amended theorem covers by
its chain disjunct. -/
theorem claim_C2_witness :
    isPrefixChainB ["3".data, "3.2".data, "3.2.P".data, "3.2.P.1".data] = true ∨
      ∃ tail, ["3".data, "3.2".data, "3.2.P".data, "3.2.P.1".data] =
          ["5".data, "5.3".data, "5.3.5".data] ++ tail ∧
        isPrefixChainB tail = true ∧ tail.head? = some "16".data :=
  claim_C2_key_path_chain "3.2.P.1 description.pdf".data none
    ["3".data, "3.2".data, "3.2.P".data, "3.2.P.1".data]
    (some "3.2.P.1) description.pdf".data) (by decide)

/-- A stem starting with `'1'` never matches pattern 1, whose literal
`Module` prefix fails immediately (shared helper). -/
theorem matchP1_head1 (rest : List Char) : matchP1 ('1' :: rest) = none := rfl

/-- A stem starting with `"16"` never matches pattern 3: the greedy
`[1-5]` code stops after the `'1'` and no whitespace follows (shared
helper). -/
theorem matchP3_head16 (rest : List Char) : matchP3 ('1' :: '6' :: rest) = none := rfl

/-- No manual-mapping prefix starts with `'1'` (shared helper). -/
theorem manualMatch_head1 (rest : List Char) : manualMatch ('1' :: rest) = none := rfl

/-- Stem and suffix reassemble to the original name (shared helper). -/
theorem splitStemExt_append (name : List Char) :
    (splitStemExt name).1 ++ (splitStemExt name).2 = name := by
  have hlds : ∀ (l : List Char) (b a : List Char),
      lastDotSplit l = some (b, a) → l = b ++ '.' :: a := by
    intro l
    induction l with
    | nil => intro b a h; exact Option.noConfusion h
    | cons c rest ih =>
        intro b a h
        rw [lastDotSplit] at h
        cases hr : lastDotSplit rest with
        | some pr =>
            obtain ⟨b', a'⟩ := pr
            rw [hr] at h
            simp only [Option.some.injEq, Prod.mk.injEq] at h
            obtain ⟨h1, h2⟩ := h
            subst h1; subst h2
            rw [List.cons_append]
            rw [← ih b' a' hr]
        | none =>
            rw [hr] at h
            by_cases hc : c = '.'
            · rw [if_pos hc] at h
              simp only [Option.some.injEq, Prod.mk.injEq] at h
              obtain ⟨h1, h2⟩ := h
              subst h1; subst h2
              simp [hc]
            · rw [if_neg hc] at h
              exact Option.noConfusion h
  unfold splitStemExt
  cases hl : lastDotSplit name with
  | none => simp
  | some pr =>
      obtain ⟨b, a⟩ := pr
      simp only []
      by_cases hba : b ≠ [] ∧ a ≠ []
      · rw [if_pos (by simp [hba.1, hba.2])]
        exact (hlds name b a hl).symm
      · rw [if_neg (by simpa using fun h1 h2 => hba ⟨h1, h2⟩)]
        simp
  
/-- A whitespace character is neither a digit nor a dot (shared
helper). -/
theorem space_not_digit_dot (c : Char) (h : isSpaceCh c = true) :
    isDigitCh c = false ∧ c ≠ '.' := by
  unfold isSpaceCh at h
  simp only [Bool.or_eq_true, decide_eq_true_eq] at h
  rcases h with ((((h | h) | h) | h) | h) | h <;> subst h <;>
    exact ⟨by decide, by decide⟩

/-- The digit-run scanner consumes a leading digit run onto its
accumulator (shared helper). -/
theorem numGroupsRun_digits : ∀ (g acc rest : List Char),
    (∀ c ∈ g, isDigitCh c = true) →
    (∀ c, rest.head? = some c → isDigitCh c = false) →
    numGroupsRun acc (g ++ rest) = numGroupsRun (g.reverse ++ acc) rest := by
  intro g
  induction g with
  | nil => intro acc rest _ _; simp
  | cons c t ih =>
      intro acc rest hg hr
      have hc : isDigitCh c = true := hg c (by simp)
      cases hx : t ++ rest with
      | nil =>
          have ht : t = [] := by
            cases t with
            | nil => rfl
            | cons d u => simp at hx
          subst ht
          simp only [List.nil_append] at hx
          subst hx
          simp [numGroupsRun, hc]
      | cons d u =>
          rw [List.cons_append, hx, numGroupsRun.eq_def]
          simp only []
          rw [if_pos hc, ← hx]
          rw [ih (c :: acc) rest (fun q hq => hg q (by simp [hq])) hr]
          simp

/-- The digit-run scanner stops at a character that is neither a digit
nor a dot (shared helper). -/
theorem numGroupsRun_stop (acc r : List Char)
    (hr : ∀ c, r.head? = some c → isDigitCh c = false ∧ c ≠ '.') :
    numGroupsRun acc r = ([acc.reverse], r) := by
  cases r with
  | nil => rfl
  | cons c u =>
      obtain ⟨h1, h2⟩ := hr c rfl
      cases u with
      | nil => simp [numGroupsRun, h1]
      | cons d v =>
          rw [numGroupsRun.eq_def]
          simp only []
          rw [if_neg (by simp [h1]), if_neg (by simp [h2])]

/-- The digit-run scanner consumes exactly the dotted digit groups and
leaves the rest (shared helper). -/
theorem numGroupsRun_dotJoin : ∀ (gs : List (List Char)) (acc r : List Char),
    (∀ g ∈ gs, g ≠ [] ∧ ∀ c ∈ g, isDigitCh c = true) →
    (∀ c, r.head? = some c → isDigitCh c = false ∧ c ≠ '.') →
    numGroupsRun acc (dotJoin gs ++ r) = (acc.reverse :: gs, r) := by
  intro gs
  induction gs with
  | nil => intro acc r _ hr; exact numGroupsRun_stop acc r hr
  | cons g1 gs' ih =>
      intro acc r hgs hr
      obtain ⟨hg1ne, hg1d⟩ := hgs g1 (by simp)
      cases g1 with
      | nil => exact absurd rfl hg1ne
      | cons d g1' =>
          have hd : isDigitCh d = true := hg1d d (by simp)
          have hshape : dotJoin ((d :: g1') :: gs') ++ r =
              '.' :: d :: (g1' ++ (dotJoin gs' ++ r)) := by
            simp [dotJoin]
          rw [hshape, numGroupsRun.eq_def]
          simp only []
          rw [if_neg (by decide), if_pos (by simp [hd])]
          have hhead : ∀ c, (dotJoin gs' ++ r).head? = some c →
              isDigitCh c = false := by
            cases gs' with
            | nil =>
                intro c hc
                exact (hr c hc).1
            | cons g2 t =>
                intro c hc
                simp [dotJoin] at hc
                subst hc
                decide
          rw [numGroupsRun_digits g1' [d] _ (fun q hq => hg1d q (by simp [hq])) hhead]
          rw [ih _ r (fun q hq => hgs q (by simp [hq])) hr]
          simp

/-- `numGroups` on dotted digit groups followed by a non-continuing rest
returns exactly those groups (shared helper). -/
theorem numGroups_dotJoin (gs : List (List Char)) (r : List Char) (hne : gs ≠ [])
    (hgs : ∀ g ∈ gs, g ≠ [] ∧ ∀ c ∈ g, isDigitCh c = true)
    (hr : ∀ c, r.head? = some c → isDigitCh c = false ∧ c ≠ '.') :
    numGroups (dotJoin gs ++ r) = (gs, r) := by
  cases gs with
  | nil => exact absurd rfl hne
  | cons g1 gs' =>
      obtain ⟨hg1ne, hg1d⟩ := hgs g1 (by simp)
      cases g1 with
      | nil => exact absurd rfl hg1ne
      | cons d g1' =>
          have hd : isDigitCh d = true := hg1d d (by simp)
          have hshape : dotJoin ((d :: g1') :: gs') ++ r =
              '.' :: d :: (g1' ++ (dotJoin gs' ++ r)) := by
            simp [dotJoin]
          rw [hshape, numGroups.eq_def]
          simp only []
          rw [if_pos hd]
          have hhead : ∀ c, (dotJoin gs' ++ r).head? = some c →
              isDigitCh c = false := by
            cases gs' with
            | nil =>
                intro c hc
                exact (hr c hc).1
            | cons g2 t =>
                intro c hc
                simp [dotJoin] at hc
                subst hc
                decide
          rw [numGroupsRun_digits g1' [d] _ (fun q hq => hg1d q (by simp [hq])) hhead]
          rw [numGroupsRun_dotJoin gs' _ r (fun q hq => hgs q (by simp [hq])) hr]
          simp

/-- `takeWhile` over a satisfying run followed by a failing head takes
exactly the run (shared helper). -/
theorem takeWhile_all_append (p : Char → Bool) (ws title : List Char)
    (hws : ∀ c ∈ ws, p c = true)
    (hth : ∀ c, title.head? = some c → p c = false) :
    (ws ++ title).takeWhile p = ws := by
  induction ws with
  | nil =>
      cases title with
      | nil => rfl
      | cons t0 t' => simp [List.takeWhile_cons, hth t0 rfl]
  | cons c t ih =>
      have hc : p c = true := hws c (by simp)
      have iht := ih fun q hq => hws q (by simp [hq])
      simp [List.takeWhile_cons, hc, iht]

/-- Dropping the length of a left factor leaves the right factor
(shared helper). -/
theorem drop_len_append (a r : List Char) : (a ++ r).drop a.length = r := by
  induction a with
  | nil => rfl
  | cons c t ih => simpa using ih

/-- `\s+(.+)$` on whitespace followed by a title starting with
non-whitespace yields exactly the title (shared helper). -/
theorem wsTitle_append (ws title : List Char) (hws : ws ≠ [])
    (hwss : ∀ c ∈ ws, isSpaceCh c = true)
    (htitle : title ≠ []) (hth : ∀ c, title.head? = some c → isSpaceCh c = false) :
    wsTitle (ws ++ title) = some title := by
  unfold wsTitle
  simp only []
  rw [takeWhile_all_append isSpaceCh ws title hwss hth]
  rw [if_neg (by simpa using hws)]
  rw [if_pos (by
    rw [List.length_append]
    have : 0 < title.length := List.length_pos.mpr htitle
    omega)]
  rw [drop_len_append]

/-- Pattern 3b on a well-formed `16` code, whitespace and title (shared
helper). -/
theorem matchP3b_16code (gs : List (List Char)) (ws title : List Char)
    (hgs : gs ≠ []) (hgsd : ∀ g ∈ gs, g ≠ [] ∧ ∀ c ∈ g, isDigitCh c = true)
    (hws : ws ≠ []) (hwss : ∀ c ∈ ws, isSpaceCh c = true)
    (htitle : title ≠ []) (hth : ∀ c, title.head? = some c → isSpaceCh c = false) :
    matchP3b ('1' :: '6' :: (dotJoin gs ++ ws ++ title)) =
      some (['1', '6'] :: gs, title) := by
  unfold matchP3b
  simp only []
  have hr : ∀ c, (ws ++ title).head? = some c →
      isDigitCh c = false ∧ c ≠ '.' := by
    intro c hc
    cases ws with
    | nil => exact absurd rfl hws
    | cons w0 ws' =>
        simp only [List.cons_append, List.head?_cons, Option.some.injEq] at hc
        subst hc
        exact space_not_digit_dot w0 (hwss w0 (by simp))
  rw [List.append_assoc, numGroups_dotJoin gs (ws ++ title) hgs hgsd hr]
  simp only []
  rw [if_neg hgs]
  rw [wsTitle_append ws title hws hwss htitle hth]

/-- The exact value of `build_components` in CSR-appendix mode on a
rejoined `16` code: the fixed module-5 path followed by the code's own
expanded prefixes (shared helper). -/
theorem build_components_16val (gs : List (List Char)) (hne : gs ≠ [])
    (hnodot : ∀ g ∈ gs, '.' ∉ g) :
    build_components (joinDots (['1', '6'] :: gs)) true =
      some ("5".data :: "5.3".data :: "5.3.5".data ::
        buildAux (['1', '6'] :: gs) []) := by
  have hnodot2 : ∀ c ∈ ['1', '6'] :: gs, '.' ∉ c := by
    intro c hc
    rcases List.mem_cons.mp hc with h | h
    · subst h; decide
    · exact hnodot c h
  unfold build_components
  simp only []
  rw [splitOnDot_joinDots _ (by simp) hnodot2]
  rw [buildAux]
  simp only [if_pos rfl]
  rw [if_pos (by simp [List.isPrefixOf])]

/-- C6 (amended): for a filename whose stem is a dotted code beginning
with `16`, then whitespace, then a title, *provided pattern 2 does not
fire on the stem* (it takes precedence when the title itself contains
`Module` followed by a code), the parser returns the fixed key path
`["5", "5.3", "5.3.5"]` followed by the expanded prefixes of the original
16-prefixed code, and the display name `"{code}) {title}{ext}"`. -/
theorem claim_C6_module16_remap (filename : List Char) (accession : Option String)
    (gs : List (List Char)) (ws title ext : List Char)
    (hstem : splitStemExt filename =
      ('1' :: '6' :: (dotJoin gs ++ ws ++ title), ext))
    (hgs : gs ≠ []) (hgsd : ∀ g ∈ gs, g ≠ [] ∧ ∀ c ∈ g, isDigitCh c = true)
    (hws : ws ≠ []) (hwss : ∀ c ∈ ws, isSpaceCh c = true)
    (htitle : title ≠ []) (hth : ∀ c, title.head? = some c → isSpaceCh c = false)
    (hp2 : matchP2 ('1' :: '6' :: (dotJoin gs ++ ws ++ title)) = none) :
    parse_ctd_info filename accession =
      (some ("5".data :: "5.3".data :: "5.3.5".data ::
          buildAux (['1', '6'] :: gs) []),
        some (joinDots (['1', '6'] :: gs) ++ ')' :: ' ' :: (title ++ ext))) := by
  have hfn : filename = '1' :: '6' :: (dotJoin gs ++ ws ++ title ++ ext) := by
    have h := splitStemExt_append filename
    rw [hstem] at h
    simpa using h.symm
  have hnodot : ∀ g ∈ gs, '.' ∉ g := by
    intro g hg hdot
    have := (hgsd g hg).2 '.' hdot
    simp [isDigitCh] at this
  unfold parse_ctd_info
  have hmm : (if accession = some "RDCP-26-0003" then manualMatch filename
      else none) = none := by
    by_cases hacc : accession = some "RDCP-26-0003"
    · rw [if_pos hacc, hfn]
      exact manualMatch_head1 _
    · rw [if_neg hacc]
  rw [hmm]
  simp only []
  have hb1 : (splitStemExt filename).1 =
      '1' :: '6' :: (dotJoin gs ++ ws ++ title) := by rw [hstem]
  have hb2 : (splitStemExt filename).2 = ext := by rw [hstem]
  rw [hb1, hb2]
  rw [matchP1_head1]
  simp only []
  rw [hp2]
  simp only []
  rw [matchP3_head16]
  simp only []
  rw [matchP3b_16code gs ws title hgs hgsd hws hwss htitle hth]
  simp only []
  rw [build_components_16val gs hgs hnodot]

/-- C6 counterexample: `"16.2.1 Module 2.5 report.pdf"` has the form
16-code, whitespace, title, but the parser returns key path
`["2", "2.5"]` — not the `["5", "5.3", "5.3.5", ...]` remap — because
pattern 2 matches the `Module 2.5` inside the title first. -/
theorem claim_C6_counterexample :
    parse_ctd_info "16.2.1 Module 2.5 report.pdf".data none =
      (some ["2".data, "2.5".data], some "2.5) 16.2.1 report.pdf".data) := by
  decide

/-- C6 witness: `"16.2.1 Title.pdf"` is remapped to
`["5", "5.3", "5.3.5", "16", "16.2", "16.2.1"]` with display name
`"16.2.1) Title.pdf"`. -/
theorem claim_C6_witness :
    parse_ctd_info "16.2.1 Title.pdf".data none =
      (some ("5".data :: "5.3".data :: "5.3.5".data ::
          buildAux [['1', '6'], ['2'], ['1']] []),
        some (joinDots [['1', '6'], ['2'], ['1']] ++ ')' :: ' ' ::
          ("Title".data ++ ".pdf".data))) :=
  claim_C6_module16_remap "16.2.1 Title.pdf".data none [['2'], ['1']] [' ']
    "Title".data ".pdf".data (by decide) (by decide) (by decide) (by decide)
    (by decide) (by decide)
    (fun c hc => by
      simp only [List.head?_cons, Option.some.injEq] at hc
      subst hc
      decide)
    (by decide)

/-- `forestNames` as a flattened per-entry map (shared helper). -/
theorem forestNames_eq_flatten : ∀ l : List (String × CNode),
    forestNames l = (l.map entryN).flatten := by
  intro l
  induction l with
  | nil => simp [forestNames]
  | cons e rest ih =>
      obtain ⟨c, n⟩ := e
      cases n with
      | mk ch fs =>
          rw [forestNames, ih]
          simp [entryN, CNode.children]

/-- `forestFiles` as a flattened per-entry map (shared helper). -/
theorem forestFiles_eq_flatten : ∀ l : List (String × CNode),
    forestFiles l = (l.map entryF).flatten := by
  intro l
  induction l with
  | nil => simp [forestFiles]
  | cons e rest ih =>
      obtain ⟨c, n⟩ := e
      cases n with
      | mk ch fs =>
          rw [forestFiles, ih]
          simp [entryF, CNode.children, CNode.files]

/-- Permuting a level permutes its folder names (shared helper). -/
theorem forestNames_perm {l1 l2 : List (String × CNode)} (h : List.Perm l1 l2) :
    List.Perm (forestNames l1) (forestNames l2) := by
  rw [forestNames_eq_flatten, forestNames_eq_flatten]
  exact (h.map entryN).flatten

/-- Permuting a level permutes its filenames (shared helper). -/
theorem forestFiles_perm {l1 l2 : List (String × CNode)} (h : List.Perm l1 l2) :
    List.Perm (forestFiles l1) (forestFiles l2) := by
  rw [forestFiles_eq_flatten, forestFiles_eq_flatten]
  exact (h.map entryF).flatten

/-- `forestNames` distributes over append (shared helper). -/
theorem forestNames_append (l1 l2 : List (String × CNode)) :
    forestNames (l1 ++ l2) = forestNames l1 ++ forestNames l2 := by
  simp [forestNames_eq_flatten]

/-- `forestFiles` distributes over append (shared helper). -/
theorem forestFiles_append (l1 l2 : List (String × CNode)) :
    forestFiles (l1 ++ l2) = forestFiles l1 ++ forestFiles l2 := by
  simp [forestFiles_eq_flatten]

/-- Sorted insertion permutes to a cons (shared helper). -/
theorem insertSorted_perm (e : String × CNode) (l : List (String × CNode)) :
    List.Perm (insertSorted e l) (e :: l) := by
  induction l with
  | nil => exact List.Perm.refl _
  | cons h t ih =>
      rw [insertSorted]
      by_cases hc : e.1 < h.1
      · rw [if_pos hc]
      · rw [if_neg hc]
        exact (ih.cons h).trans (List.Perm.swap e h t)

/-- `sorted(node.items())` permutes the level (shared helper). -/
theorem sortByKey_perm (l : List (String × CNode)) : List.Perm (sortByKey l) l := by
  induction l with
  | nil => exact List.Perm.refl _
  | cons h t ih =>
      exact (insertSorted_perm h (sortByKey t)).trans (ih.cons h)

/-- Inserting a path adds at most that path's folder names to a
forest's name multiset (shared helper). -/
theorem count_names_insertPath (forest : List (String × CNode)) (path : List String)
    (files : List (String × String)) (x : String) :
    (forestNames (insertPath forest path files)).count x ≤
      (forestNames forest).count x + (path.map get_ctd_folder_name).count x := by
  induction forest, path, files using insertPath.induct with
  | case1 forest files => simp [insertPath]
  | case2 c files => simp [insertPath, forestNames]
  | case3 c c2 rest files ih =>
      rw [insertPath, forestNames]
      simp only [List.map_cons, List.count_cons, List.count_append, List.append_nil,
        forestNames] at *
      first
      | omega
      | split_ifs at * <;> omega
  | case4 ch fl fs c files =>
      rw [insertPath, if_pos rfl]
      have he : forestNames ((c, CNode.mk ch (fl ++ files)) :: fs) =
          forestNames ((c, CNode.mk ch fl) :: fs) := by
        rw [forestNames, forestNames]
      rw [he]
      omega
  | case5 k ch fl fs c files h ih =>
      rw [insertPath, if_neg h]
      have he : forestNames ((k, CNode.mk ch fl) :: insertPath fs [c] files) =
          get_ctd_folder_name k ::
            (forestNames ch ++ forestNames (insertPath fs [c] files)) := by
        rw [forestNames]
      rw [he, forestNames]
      simp only [List.count_cons, List.count_append] at *
      first
      | omega
      | split_ifs at * <;> omega
  | case6 ch fl fs c c2 rest files ih =>
      rw [insertPath, if_pos rfl]
      have he : forestNames
            ((c, CNode.mk (insertPath ch (c2 :: rest) files) fl) :: fs) =
          get_ctd_folder_name c ::
            (forestNames (insertPath ch (c2 :: rest) files) ++ forestNames fs) := by
        rw [forestNames]
      rw [he, forestNames]
      simp only [List.map_cons, List.count_cons, List.count_append] at *
      first
      | omega
      | split_ifs at * <;> omega
  | case7 k ch fl fs c c2 rest files h ih =>
      rw [insertPath, if_neg h]
      have he : forestNames
            ((k, CNode.mk ch fl) :: insertPath fs (c :: c2 :: rest) files) =
          get_ctd_folder_name k ::
            (forestNames ch ++ forestNames (insertPath fs (c :: c2 :: rest) files)) := by
        rw [forestNames]
      rw [he, forestNames]
      simp only [List.map_cons, List.count_cons, List.count_append] at *
      first
      | omega
      | split_ifs at * <;> omega

/-- Inserting files adds at most those filenames to a forest's file
multiset (shared helper). -/
theorem count_files_insertPath (forest : List (String × CNode)) (path : List String)
    (files : List (String × String)) (x : String) :
    (forestFiles (insertPath forest path files)).count x ≤
      (forestFiles forest).count x + (files.map Prod.fst).count x := by
  induction forest, path, files using insertPath.induct with
  | case1 forest files => simp [insertPath]
  | case2 c files => simp [insertPath, forestFiles]
  | case3 c c2 rest files ih =>
      rw [insertPath, forestFiles]
      simp only [List.map_nil, List.count_nil, List.count_append, List.append_nil,
        forestFiles] at *
      first
      | omega
      | split_ifs at * <;> omega
  | case4 ch fl fs c files =>
      rw [insertPath, if_pos rfl]
      have he : forestFiles ((c, CNode.mk ch (fl ++ files)) :: fs) =
          (fl ++ files).map Prod.fst ++ (forestFiles ch ++ forestFiles fs) := by
        rw [forestFiles]
      rw [he, forestFiles]
      simp only [List.map_append, List.count_append]
      omega
  | case5 k ch fl fs c files h ih =>
      rw [insertPath, if_neg h]
      have he : forestFiles ((k, CNode.mk ch fl) :: insertPath fs [c] files) =
          fl.map Prod.fst ++
            (forestFiles ch ++ forestFiles (insertPath fs [c] files)) := by
        rw [forestFiles]
      rw [he, forestFiles]
      simp only [List.count_append] at *
      omega
  | case6 ch fl fs c c2 rest files ih =>
      rw [insertPath, if_pos rfl]
      have he : forestFiles
            ((c, CNode.mk (insertPath ch (c2 :: rest) files) fl) :: fs) =
          fl.map Prod.fst ++
            (forestFiles (insertPath ch (c2 :: rest) files) ++ forestFiles fs) := by
        rw [forestFiles]
      rw [he, forestFiles]
      simp only [List.count_append] at *
      omega
  | case7 k ch fl fs c c2 rest files h ih =>
      rw [insertPath, if_neg h]
      have he : forestFiles
            ((k, CNode.mk ch fl) :: insertPath fs (c :: c2 :: rest) files) =
          fl.map Prod.fst ++
            (forestFiles ch ++ forestFiles (insertPath fs (c :: c2 :: rest) files)) := by
        rw [forestFiles]
      rw [he, forestFiles]
      simp only [List.count_append] at *
      omega

/-- A root key of the tree after an insertion is an old key or the
inserted path's head (shared helper). -/
theorem insertPath_keys (forest : List (String × CNode)) (path : List String)
    (files : List (String × String)) :
    ∀ e ∈ insertPath forest path files,
      e.1 ∈ forest.map Prod.fst ∨ path.head? = some e.1 := by
  induction forest, path, files using insertPath.induct with
  | case1 forest files =>
      intro e he
      rw [insertPath] at he
      exact Or.inl (List.mem_map_of_mem Prod.fst he)
  | case2 c files =>
      intro e he
      rw [insertPath] at he
      simp only [List.mem_singleton] at he
      subst he
      exact Or.inr rfl
  | case3 c c2 rest files ih =>
      intro e he
      rw [insertPath] at he
      simp only [List.mem_singleton] at he
      subst he
      exact Or.inr rfl
  | case4 ch fl fs c files =>
      intro e he
      simp only [insertPath, if_pos rfl] at he
      rcases List.mem_cons.mp he with h | h
      · subst h
        exact Or.inl (by simp)
      · exact Or.inl (by simp [List.mem_map_of_mem Prod.fst h])
  | case5 k ch fl fs c files h ih =>
      intro e he
      simp only [insertPath, if_neg h] at he
      rcases List.mem_cons.mp he with h2 | h2
      · subst h2
        exact Or.inl (by simp)
      · rcases ih e h2 with h3 | h3
        · exact Or.inl (by simp [h3])
        · exact Or.inr h3
  | case6 ch fl fs c c2 rest files ih =>
      intro e he
      simp only [insertPath, if_pos rfl] at he
      rcases List.mem_cons.mp he with h | h
      · subst h
        exact Or.inl (by simp)
      · exact Or.inl (by simp [List.mem_map_of_mem Prod.fst h])
  | case7 k ch fl fs c c2 rest files h ih =>
      intro e he
      simp only [insertPath, if_neg h] at he
      rcases List.mem_cons.mp he with h2 | h2
      · subst h2
        exact Or.inl (by simp)
      · rcases ih e h2 with h3 | h3
        · exact Or.inl (by simp [h3])
        · exact Or.inr h3

/-- Entries whose key differs from the inserted path's head survive an
insertion untouched (shared helper). -/
theorem insertPath_mem_of_ne (forest : List (String × CNode)) (path : List String)
    (files : List (String × String)) (c : String) (hp : path.head? = some c) :
    ∀ e ∈ forest, e.1 ≠ c → e ∈ insertPath forest path files := by
  induction forest, path, files using insertPath.induct with
  | case1 forest files =>
      intro e he _
      rw [insertPath]
      exact he
  | case2 c2 files => intro e he; simp at he
  | case3 c2 c3 rest files ih => intro e he; simp at he
  | case4 ch fl fs c2 files =>
      intro e he hne
      simp only [List.head?_cons, Option.some.injEq] at hp
      subst hp
      simp only [insertPath, if_pos rfl]
      rcases List.mem_cons.mp he with h | h
      · exact absurd (congrArg Prod.fst h) (by simpa using hne)
      · exact List.mem_cons_of_mem _ h
  | case5 k ch fl fs c2 files h ih =>
      intro e he hne
      simp only [List.head?_cons, Option.some.injEq] at hp
      subst hp
      simp only [insertPath, if_neg h]
      rcases List.mem_cons.mp he with h2 | h2
      · subst h2
        exact List.mem_cons_self _ _
      · exact List.mem_cons_of_mem _ (ih rfl e h2 hne)
  | case6 ch fl fs c2 c3 rest files ih =>
      intro e he hne
      simp only [List.head?_cons, Option.some.injEq] at hp
      subst hp
      simp only [insertPath, if_pos rfl]
      rcases List.mem_cons.mp he with h | h
      · exact absurd (congrArg Prod.fst h) (by simpa using hne)
      · exact List.mem_cons_of_mem _ h
  | case7 k ch fl fs c2 c3 rest files h ih =>
      intro e he hne
      simp only [List.head?_cons, Option.some.injEq] at hp
      subst hp
      simp only [insertPath, if_neg h]
      rcases List.mem_cons.mp he with h2 | h2
      · subst h2
        exact List.mem_cons_self _ _
      · exact List.mem_cons_of_mem _ (ih rfl e h2 hne)

/-- A root key of the tree after an insertion is an old key or the
inserted path's head (shared helper). -/
theorem insertPath_keys_nodup (forest : List (String × CNode)) (path : List String)
    (files : List (String × String)) (hnd : (forest.map Prod.fst).Nodup) :
    ((insertPath forest path files).map Prod.fst).Nodup := by
  induction forest, path, files using insertPath.induct with
  | case1 forest files => rw [insertPath]; exact hnd
  | case2 c files => rw [insertPath]; simp
  | case3 c c2 rest files ih => rw [insertPath]; simp
  | case4 ch fl fs c files =>
      simp only [insertPath, if_pos rfl]
      simpa using hnd
  | case5 k ch fl fs c files h ih =>
      simp only [insertPath, if_neg h]
      simp only [List.map_cons, List.nodup_cons] at hnd ⊢
      refine ⟨?_, ih hnd.2⟩
      intro hk
      rw [List.mem_map] at hk
      obtain ⟨e, he, hke⟩ := hk
      rcases insertPath_keys fs [c] files e he with h2 | h2
      · exact hnd.1 (hke ▸ h2)
      · simp only [List.head?_cons, Option.some.injEq] at h2
        exact h (by rw [← hke, h2])
  | case6 ch fl fs c c2 rest files ih =>
      simp only [insertPath, if_pos rfl]
      simpa using hnd
  | case7 k ch fl fs c c2 rest files h ih =>
      simp only [insertPath, if_neg h]
      simp only [List.map_cons, List.nodup_cons] at hnd ⊢
      refine ⟨?_, ih hnd.2⟩
      intro hk
      rw [List.mem_map] at hk
      obtain ⟨e, he, hke⟩ := hk
      rcases insertPath_keys fs (c :: c2 :: rest) files e he with h2 | h2
      · exact hnd.1 (hke ▸ h2)
      · simp only [List.head?_cons, Option.some.injEq] at h2
        exact h (by rw [← hke, h2])

/-- Inserting under a fresh root key appends a new entry at the end of
the level, as Python dict insertion does (shared helper). -/
theorem insertPath_fresh (forest : List (String × CNode)) (path : List String)
    (files : List (String × String)) (c : String) (hp : path.head? = some c)
    (hc : c ∉ forest.map Prod.fst) :
    insertPath forest path files = forest ++ insertPath [] path files := by
  induction forest, path, files using insertPath.induct with
  | case1 forest files => simp at hp
  | case2 c2 files => simp [insertPath]
  | case3 c2 c3 rest files ih => simp [insertPath]
  | case4 ch fl fs c2 files =>
      simp only [List.head?_cons, Option.some.injEq] at hp
      subst hp
      simp at hc
  | case5 k ch fl fs c2 files h ih =>
      simp only [List.head?_cons, Option.some.injEq] at hp
      subst hp
      simp only [insertPath, if_neg h, List.cons_append]
      have hc2 : _ ∉ List.map Prod.fst fs := fun hm => hc (by
        rw [List.map_cons]
        exact List.mem_cons_of_mem _ hm)
      rw [ih rfl hc2, insertPath]
  | case6 ch fl fs c2 c3 rest files ih =>
      simp only [List.head?_cons, Option.some.injEq] at hp
      subst hp
      simp at hc
  | case7 k ch fl fs c2 c3 rest files h ih =>
      simp only [List.head?_cons, Option.some.injEq] at hp
      subst hp
      simp only [insertPath, if_neg h, List.cons_append]
      have hc2 : _ ∉ List.map Prod.fst fs := fun hm => hc (by
        rw [List.map_cons]
        exact List.mem_cons_of_mem _ hm)
      rw [ih rfl hc2, insertPath]

/-- Sorted insertion preserves size (shared helper). -/
theorem sizeOf_insertSorted (e : String × CNode) (l : List (String × CNode)) :
    sizeOf (insertSorted e l) = 1 + sizeOf e + sizeOf l := by
  induction l with
  | nil => simp [insertSorted]
  | cons h t ih =>
      simp only [insertSorted]
      by_cases hc : e.1 < h.1
      · simp [hc]
        try omega
      · simp [hc, ih]
        try omega

/-- Sorting a level preserves size (shared helper). -/
theorem sizeOf_sortByKey (l : List (String × CNode)) :
    sizeOf (sortByKey l) = sizeOf l := by
  induction l with
  | nil => rfl
  | cons h t ih =>
      show sizeOf (insertSorted h (sortByKey t)) = _
      rw [sizeOf_insertSorted, ih]
      simp
      try omega

/-- `create_links` on an empty level leaves the state unchanged
(shared helper). -/
theorem clGo_nil (p a : List String) (st : MState) : clGo [] p a st = st := by
  rw [clGo]

/-- One step of `create_links`: process the head entry, then the rest
(shared helper). -/
theorem clGo_cons (comp : String) (ch : List (String × CNode))
    (fs : List (String × String)) (rest : List (String × CNode))
    (p a : List String) (st : MState) :
    clGo ((comp, .mk ch fs) :: rest) p a st =
      clGo rest p a
        (if ch.length + fs.length = 0 then st
         else if ch.length + fs.length = 1 && fs.length = 1 then
           match fs with
           | (filename, source) :: _ =>
               if linkExists st (p ++ [filename]) then
                 { st with skipped := st.skipped + 1 }
               else { st with links := st.links ++ [(p ++ [filename], source)],
                              linked := st.linked + 1 }
           | [] => st
         else if ch.length + fs.length = 1 && ch.length = 1 then
           clGo (sortByKey ch) p (a ++ [get_ctd_folder_name comp]) st
         else
           clGo (sortByKey ch) (p ++ a ++ [get_ctd_folder_name comp]) []
             (linkFiles fs (p ++ a ++ [get_ctd_folder_name comp])
               { st with dirs := st.dirs ++
                   pathPrefixes (p ++ a ++ [get_ctd_folder_name comp]) })) := by
  rw [clGo.eq_def]

/-- Processing a concatenation of levels processes them in sequence
(shared helper). -/
theorem clGo_append : ∀ (l1 l2 : List (String × CNode)) (p a : List String)
    (st : MState), clGo (l1 ++ l2) p a st = clGo l2 p a (clGo l1 p a st) := by
  intro l1
  induction l1 with
  | nil =>
      intro l2 p a st
      rw [clGo_nil]
      rfl
  | cons e t ih =>
      intro l2 p a st
      obtain ⟨comp, node⟩ := e
      cases node with
      | mk ch fs =>
          rw [List.cons_append, clGo_cons, clGo_cons, ih]

/-- Linking files never creates directories (shared helper). -/
theorem linkFiles_dirs (files : List (String × String)) (fp : List String)
    (st : MState) : (linkFiles files fp st).dirs = st.dirs := by
  induction files generalizing st with
  | nil => rfl
  | cons pr rest ih =>
      obtain ⟨n, s⟩ := pr
      rw [linkFiles]
      try simp only []
      by_cases h : linkExists st (fp ++ [n]) = true
      · rw [if_pos h, ih]
      · rw [if_neg h, ih]

/-- Linking files keeps existing symlinks and only adds links inside
the folder just created (shared helper). -/
theorem linkFiles_links (files : List (String × String)) (fp : List String)
    (st : MState) :
    (∀ e ∈ st.links, e ∈ (linkFiles files fp st).links) ∧
    (∀ e ∈ (linkFiles files fp st).links,
      e ∈ st.links ∨ ∃ n s, (n, s) ∈ files ∧ e = (fp ++ [n], s)) := by
  induction files generalizing st with
  | nil => exact ⟨fun e he => he, fun e he => Or.inl he⟩
  | cons pr rest ih =>
      obtain ⟨n, s⟩ := pr
      rw [linkFiles]
      try simp only []
      by_cases h : linkExists st (fp ++ [n]) = true
      · rw [if_pos h]
        obtain ⟨f1, f2⟩ := ih { st with skipped := st.skipped + 1 }
        refine ⟨fun e he => f1 e he, fun e he => ?_⟩
        rcases f2 e he with h2 | ⟨n2, s2, hmem, heq⟩
        · exact Or.inl h2
        · exact Or.inr ⟨n2, s2, List.mem_cons_of_mem _ hmem, heq⟩
      · rw [if_neg h]
        obtain ⟨f1, f2⟩ := ih { st with
          links := st.links ++ [(fp ++ [n], s)],
          linked := st.linked + 1 }
        refine ⟨fun e he => f1 e (by simp [he]), fun e he => ?_⟩
        rcases f2 e he with h2 | ⟨n2, s2, hmem, heq⟩
        · simp only [List.mem_append, List.mem_singleton] at h2
          rcases h2 with h2 | h2
          · exact Or.inl h2
          · exact Or.inr ⟨n, s, List.mem_cons_self _ _, h2⟩
        · exact Or.inr ⟨n2, s2, List.mem_cons_of_mem _ hmem, heq⟩

/-- The materializer never removes a directory or symlink (shared
helper). -/
theorem clGo_mono : ∀ (n : Nat) (l : List (String × CNode)) (p a : List String)
    (st : MState), sizeOf l ≤ n →
    (∀ d ∈ st.dirs, d ∈ (clGo l p a st).dirs) ∧
    (∀ e ∈ st.links, e ∈ (clGo l p a st).links) := by
  intro n
  induction n with
  | zero =>
      intro l p a st hn
      cases l with
      | nil => simp at hn
      | cons e t => simp at hn
  | succ n ih =>
      intro l p a st hn
      cases l with
      | nil =>
          rw [clGo_nil]
          exact ⟨fun d hd => hd, fun e he => he⟩
      | cons e rest =>
          obtain ⟨comp, node⟩ := e
          cases node with
          | mk ch fs =>
              simp only [List.cons.sizeOf_spec, Prod.mk.sizeOf_spec,
                CNode.mk.sizeOf_spec] at hn
              have hrest : sizeOf rest ≤ n := by omega
              have hch : sizeOf (sortByKey ch) ≤ n := by
                rw [sizeOf_sortByKey]
                omega
              rw [clGo_cons]
              by_cases h0 : ch.length + fs.length = 0
              · rw [if_pos h0]
                exact ih rest p a st hrest
              · rw [if_neg h0]
                by_cases h1 : (ch.length + fs.length = 1 && fs.length = 1) = true
                · rw [if_pos h1]
                  cases fs with
                  | nil => simp at h1
                  | cons pr tail =>
                      obtain ⟨fn, src⟩ := pr
                      simp only []
                      by_cases h2 : linkExists st (p ++ [fn]) = true
                      · rw [if_pos h2]
                        obtain ⟨d1, l1⟩ := ih rest p a
                          { st with skipped := st.skipped + 1 } hrest
                        exact ⟨fun d hd => d1 d hd, fun e he => l1 e he⟩
                      · rw [if_neg h2]
                        obtain ⟨d1, l1⟩ := ih rest p a
                          { st with
                            links := st.links ++ [(p ++ [fn], src)],
                            linked := st.linked + 1 } hrest
                        exact ⟨fun d hd => d1 d hd, fun e he => l1 e (by simp [he])⟩
                · rw [if_neg h1]
                  by_cases h2 : (ch.length + fs.length = 1 && ch.length = 1) = true
                  · rw [if_pos h2]
                    obtain ⟨dc, lc⟩ := ih (sortByKey ch) p
                      (a ++ [get_ctd_folder_name comp]) st hch
                    obtain ⟨dr, lr⟩ := ih rest p a
                      (clGo (sortByKey ch) p (a ++ [get_ctd_folder_name comp]) st)
                      hrest
                    exact ⟨fun d hd => dr d (dc d hd), fun e he => lr e (lc e he)⟩
                  · rw [if_neg h2]
                    set fpth := p ++ a ++ [get_ctd_folder_name comp] with hfp
                    set st1 : MState := { st with dirs := st.dirs ++ pathPrefixes fpth }
                      with hst1
                    set st2 := linkFiles fs fpth st1 with hst2
                    obtain ⟨dc, lc⟩ := ih (sortByKey ch) fpth [] st2 hch
                    obtain ⟨dr, lr⟩ := ih rest p a
                      (clGo (sortByKey ch) fpth [] st2) hrest
                    refine ⟨fun d hd => dr d (dc d ?_), fun e he => lr e (lc e ?_)⟩
                    · rw [hst2, linkFiles_dirs]
                      simp [hst1, hd]
                    · exact (linkFiles_links fs fpth st1).1 e he

/-- A prefix of a path is empty or starts with the path's head (shared
helper). -/
theorem mem_pathPrefixes (q : List String) (d : List String)
    (hd : d ∈ pathPrefixes q) :
    d = [] ∨ ∃ c t, d = c :: t ∧ q.head? = some c := by
  unfold pathPrefixes at hd
  rw [List.mem_map] at hd
  obtain ⟨m, _, hdm⟩ := hd
  cases m with
  | zero => exact Or.inl (by simp [← hdm])
  | succ k =>
      cases q with
      | nil => exact Or.inl (by simp [← hdm])
      | cons c0 q' =>
          right
          exact ⟨c0, q'.take k, by rw [← hdm, List.take_succ_cons], rfl⟩

/-- Name membership in a cons level (shared helper). -/
theorem mem_forestNames_cons (comp : String) (ch : List (String × CNode))
    (fs : List (String × String)) (rest : List (String × CNode)) (x : String) :
    (x = get_ctd_folder_name comp ∨ x ∈ forestNames ch ∨ x ∈ forestNames rest) →
    x ∈ forestNames ((comp, CNode.mk ch fs) :: rest) := by
  intro h
  rw [forestNames]
  rcases h with h | h | h
  · exact h ▸ List.mem_cons_self _ _
  · exact List.mem_cons_of_mem _ (List.mem_append_left _ h)
  · exact List.mem_cons_of_mem _ (List.mem_append_right _ h)

/-- File membership in a cons level (shared helper). -/
theorem mem_forestFiles_cons (comp : String) (ch : List (String × CNode))
    (fs : List (String × String)) (rest : List (String × CNode)) (x : String) :
    (x ∈ fs.map Prod.fst ∨ x ∈ forestFiles ch ∨ x ∈ forestFiles rest) →
    x ∈ forestFiles ((comp, CNode.mk ch fs) :: rest) := by
  intro h
  rw [forestFiles]
  rcases h with h | h | h
  · exact List.mem_append_left _ h
  · exact List.mem_append_right _ (List.mem_append_left _ h)
  · exact List.mem_append_right _ (List.mem_append_right _ h)

/-- Sorting preserves the names of a level (shared helper). -/
theorem mem_forestNames_sort (ch : List (String × CNode)) (x : String)
    (h : x ∈ forestNames (sortByKey ch)) : x ∈ forestNames ch :=
  (forestNames_perm (sortByKey_perm ch)).mem_iff.mp h

/-- Sorting preserves the files of a level (shared helper). -/
theorem mem_forestFiles_sort (ch : List (String × CNode)) (x : String)
    (h : x ∈ forestFiles (sortByKey ch)) : x ∈ forestFiles ch :=
  (forestFiles_perm (sortByKey_perm ch)).mem_iff.mp h

/-- Every directory or symlink the materializer creates is rooted at a
component allowed by the current parent path, accumulated names, or the
level's own names and files (shared helper). -/
theorem clGo_new : ∀ (n : Nat) (l : List (String × CNode)) (p a : List String)
    (st : MState), sizeOf l ≤ n →
    (∀ d ∈ (clGo l p a st).dirs,
      d ∈ st.dirs ∨ d = [] ∨ ∃ c t, d = c :: t ∧ dirHeadOK l p a c) ∧
    (∀ e ∈ (clGo l p a st).links,
      e ∈ st.links ∨ ∃ c t s, e = (c :: t, s) ∧ linkHeadOK l p a c) := by
  intro n
  induction n with
  | zero =>
      intro l p a st hn
      cases l with
      | nil => simp at hn
      | cons e t => simp at hn
  | succ n ih =>
      intro l p a st hn
      cases l with
      | nil =>
          rw [clGo_nil]
          exact ⟨fun d hd => Or.inl hd, fun e he => Or.inl he⟩
      | cons e rest =>
          obtain ⟨comp, node⟩ := e
          cases node with
          | mk ch fs =>
              simp only [List.cons.sizeOf_spec, Prod.mk.sizeOf_spec,
                CNode.mk.sizeOf_spec] at hn
              have hrest : sizeOf rest ≤ n := by omega
              have hch : sizeOf (sortByKey ch) ≤ n := by
                rw [sizeOf_sortByKey]
                omega
              have wdir : ∀ c, dirHeadOK rest p a c →
                  dirHeadOK ((comp, CNode.mk ch fs) :: rest) p a c := by
                intro c hc
                cases p with
                | cons c0 p' => exact hc
                | nil =>
                    cases a with
                    | cons c0 a' => exact hc
                    | nil =>
                        simp only [dirHeadOK] at hc ⊢
                        exact mem_forestNames_cons comp ch fs rest c
                          (Or.inr (Or.inr hc))
              have wlink : ∀ c, linkHeadOK rest p a c →
                  linkHeadOK ((comp, CNode.mk ch fs) :: rest) p a c := by
                intro c hc
                cases p with
                | cons c0 p' => exact hc
                | nil =>
                    cases a with
                    | cons c0 a' =>
                        simp only [linkHeadOK] at hc ⊢
                        rcases hc with hc | hc
                        · exact Or.inl (mem_forestFiles_cons comp ch fs rest c
                            (Or.inr (Or.inr hc)))
                        · exact Or.inr hc
                    | nil =>
                        simp only [linkHeadOK] at hc ⊢
                        rcases hc with hc | hc
                        · exact Or.inl (mem_forestFiles_cons comp ch fs rest c
                            (Or.inr (Or.inr hc)))
                        · exact Or.inr (mem_forestNames_cons comp ch fs rest c
                            (Or.inr (Or.inr hc)))
              rw [clGo_cons]
              by_cases h0 : ch.length + fs.length = 0
              · rw [if_pos h0]
                obtain ⟨dr, lr⟩ := ih rest p a st hrest
                refine ⟨fun d hd => ?_, fun e he => ?_⟩
                · rcases dr d hd with h | h | ⟨c, t, he2, hok⟩
                  · exact Or.inl h
                  · exact Or.inr (Or.inl h)
                  · exact Or.inr (Or.inr ⟨c, t, he2, wdir c hok⟩)
                · rcases lr e he with h | ⟨c, t, s, he2, hok⟩
                  · exact Or.inl h
                  · exact Or.inr ⟨c, t, s, he2, wlink c hok⟩
              · rw [if_neg h0]
                by_cases h1 : (ch.length + fs.length = 1 && fs.length = 1) = true
                · rw [if_pos h1]
                  cases fs with
                  | nil => simp at h1
                  | cons pr tail =>
                      obtain ⟨fn, src⟩ := pr
                      simp only []
                      have hstep : ∀ (st' : MState),
                          st'.dirs = st.dirs →
                          (∀ e ∈ st'.links, e ∈ st.links ∨ e = (p ++ [fn], src)) →
                          (∀ d ∈ (clGo rest p a st').dirs,
                            d ∈ st.dirs ∨ d = [] ∨ ∃ c t, d = c :: t ∧
                              dirHeadOK ((comp, CNode.mk ch
                                ((fn, src) :: tail)) :: rest) p a c) ∧
                          (∀ e ∈ (clGo rest p a st').links,
                            e ∈ st.links ∨ ∃ c t s, e = (c :: t, s) ∧
                              linkHeadOK ((comp, CNode.mk ch
                                ((fn, src) :: tail)) :: rest) p a c) := by
                        intro st' hdirs hlinks
                        obtain ⟨dr, lr⟩ := ih rest p a st' hrest
                        refine ⟨fun d hd => ?_, fun e he => ?_⟩
                        · rcases dr d hd with h | h | ⟨c, t, he2, hok⟩
                          · exact Or.inl (hdirs ▸ h)
                          · exact Or.inr (Or.inl h)
                          · exact Or.inr (Or.inr ⟨c, t, he2, wdir c hok⟩)
                        · rcases lr e he with h | ⟨c, t, s, he2, hok⟩
                          · rcases hlinks e h with h2 | h2
                            · exact Or.inl h2
                            · subst h2
                              cases p with
                              | nil =>
                                  refine Or.inr ⟨fn, [], src, rfl, ?_⟩
                                  have hm : fn ∈ forestFiles ((comp, CNode.mk ch
                                      ((fn, src) :: tail)) :: rest) :=
                                    mem_forestFiles_cons comp ch ((fn, src) :: tail)
                                      rest fn (Or.inl (by simp))
                                  cases a with
                                  | cons c0 a' =>
                                      simp only [linkHeadOK]
                                      exact Or.inl hm
                                  | nil =>
                                      simp only [linkHeadOK]
                                      exact Or.inl hm
                              | cons c0 p' =>
                                  exact Or.inr ⟨c0, p' ++ [fn], src, rfl, rfl⟩
                          · exact Or.inr ⟨c, t, s, he2, wlink c hok⟩
                      by_cases h2 : linkExists st (p ++ [fn]) = true
                      · rw [if_pos h2]
                        exact hstep _ rfl (fun e he => Or.inl he)
                      · rw [if_neg h2]
                        refine hstep _ rfl (fun e he => ?_)
                        simp only [List.mem_append, List.mem_singleton] at he
                        rcases he with he | he
                        · exact Or.inl he
                        · exact Or.inr he
                · rw [if_neg h1]
                  by_cases h2 : (ch.length + fs.length = 1 && ch.length = 1) = true
                  · rw [if_pos h2]
                    obtain ⟨dc, lc⟩ := ih (sortByKey ch) p
                      (a ++ [get_ctd_folder_name comp]) st hch
                    obtain ⟨dr, lr⟩ := ih rest p a
                      (clGo (sortByKey ch) p (a ++ [get_ctd_folder_name comp]) st)
                      hrest
                    have wdir2 : ∀ c,
                        dirHeadOK (sortByKey ch) p (a ++ [get_ctd_folder_name comp]) c →
                        dirHeadOK ((comp, CNode.mk ch fs) :: rest) p a c := by
                      intro c hc
                      cases p with
                      | cons c0 p' => exact hc
                      | nil =>
                          cases a with
                          | cons c0 a' => exact hc
                          | nil =>
                              simp only [List.nil_append, dirHeadOK] at hc ⊢
                              exact mem_forestNames_cons comp ch fs rest c (Or.inl hc)
                    have wlink2 : ∀ c,
                        linkHeadOK (sortByKey ch) p (a ++ [get_ctd_folder_name comp]) c →
                        linkHeadOK ((comp, CNode.mk ch fs) :: rest) p a c := by
                      intro c hc
                      cases p with
                      | cons c0 p' => exact hc
                      | nil =>
                          cases a with
                          | cons c0 a' =>
                              simp only [List.cons_append, linkHeadOK] at hc ⊢
                              rcases hc with hc | hc
                              · exact Or.inl (mem_forestFiles_cons comp ch fs rest c
                                  (Or.inr (Or.inl (mem_forestFiles_sort ch c hc))))
                              · exact Or.inr hc
                          | nil =>
                              simp only [List.nil_append, linkHeadOK] at hc ⊢
                              rcases hc with hc | hc
                              · exact Or.inl (mem_forestFiles_cons comp ch fs rest c
                                  (Or.inr (Or.inl (mem_forestFiles_sort ch c hc))))
                              · exact Or.inr (mem_forestNames_cons comp ch fs rest c
                                  (Or.inl hc))
                    refine ⟨fun d hd => ?_, fun e he => ?_⟩
                    · rcases dr d hd with h | h | ⟨c, t, he2, hok⟩
                      · rcases dc d h with h3 | h3 | ⟨c, t, he2, hok⟩
                        · exact Or.inl h3
                        · exact Or.inr (Or.inl h3)
                        · exact Or.inr (Or.inr ⟨c, t, he2, wdir2 c hok⟩)
                      · exact Or.inr (Or.inl h)
                      · exact Or.inr (Or.inr ⟨c, t, he2, wdir c hok⟩)
                    · rcases lr e he with h | ⟨c, t, s, he2, hok⟩
                      · rcases lc e h with h3 | ⟨c, t, s, he2, hok⟩
                        · exact Or.inl h3
                        · exact Or.inr ⟨c, t, s, he2, wlink2 c hok⟩
                      · exact Or.inr ⟨c, t, s, he2, wlink c hok⟩
                  · rw [if_neg h2]
                    have hhead : ∀ c, (p ++ a ++ [get_ctd_folder_name comp]).head? =
                        some c → dirHeadOK ((comp, CNode.mk ch fs) :: rest) p a c := by
                      intro c hhead
                      cases p with
                      | cons c0 p' =>
                          simp only [List.cons_append, List.head?_cons,
                            Option.some.injEq] at hhead
                          exact hhead.symm
                      | nil =>
                          cases a with
                          | cons c0 a' =>
                              simp only [List.nil_append, List.cons_append,
                                List.head?_cons, Option.some.injEq] at hhead
                              exact hhead.symm
                          | nil =>
                              simp only [List.nil_append, List.head?_cons,
                                Option.some.injEq] at hhead
                              simp only [dirHeadOK]
                              exact mem_forestNames_cons comp ch fs rest c
                                (Or.inl hhead.symm)
                    have hdl : ∀ c, dirHeadOK ((comp, CNode.mk ch fs) :: rest) p a c →
                        linkHeadOK ((comp, CNode.mk ch fs) :: rest) p a c := by
                      intro c hc
                      cases p with
                      | cons c0 p' => exact hc
                      | nil =>
                          cases a with
                          | cons c0 a' =>
                              simp only [linkHeadOK]
                              exact Or.inr hc
                          | nil =>
                              simp only [dirHeadOK] at hc
                              simp only [linkHeadOK]
                              exact Or.inr hc
                    obtain ⟨dc, lc⟩ := ih (sortByKey ch)
                      (p ++ a ++ [get_ctd_folder_name comp]) []
                      (linkFiles fs (p ++ a ++ [get_ctd_folder_name comp])
                        { st with dirs := st.dirs ++
                            pathPrefixes (p ++ a ++ [get_ctd_folder_name comp]) })
                      hch
                    obtain ⟨dr, lr⟩ := ih rest p a
                      (clGo (sortByKey ch) (p ++ a ++ [get_ctd_folder_name comp]) []
                        (linkFiles fs (p ++ a ++ [get_ctd_folder_name comp])
                          { st with dirs := st.dirs ++
                              pathPrefixes (p ++ a ++ [get_ctd_folder_name comp]) }))
                      hrest
                    refine ⟨fun d hd => ?_, fun e he => ?_⟩
                    · rcases dr d hd with h | h | ⟨c, t, he2, hok⟩
                      · rcases dc d h with h3 | h3 | ⟨c, t, he2, hok⟩
                        · rw [linkFiles_dirs] at h3
                          simp only [List.mem_append] at h3
                          rcases h3 with h4 | h4
                          · exact Or.inl h4
                          · rcases mem_pathPrefixes _ d h4 with h5 | ⟨c, t, he2, hq⟩
                            · exact Or.inr (Or.inl h5)
                            · exact Or.inr (Or.inr ⟨c, t, he2, hhead c hq⟩)
                        · exact Or.inr (Or.inl h3)
                        · cases hq : p ++ a ++ [get_ctd_folder_name comp] with
                          | nil => simp at hq
                          | cons c0 q' =>
                              rw [hq] at hok
                              simp only [dirHeadOK] at hok
                              exact Or.inr (Or.inr ⟨c, t, he2,
                                hhead c (by rw [hq, hok]; rfl)⟩)
                      · exact Or.inr (Or.inl h)
                      · exact Or.inr (Or.inr ⟨c, t, he2, wdir c hok⟩)
                    · rcases lr e he with h | ⟨c, t, s, he2, hok⟩
                      · rcases lc e h with h3 | ⟨c, t, s, he2, hok⟩
                        · rcases (linkFiles_links fs _ _).2 e h3 with h4 | ⟨n2, s2, hmem, heq⟩
                          · exact Or.inl h4
                          · subst heq
                            cases hq : p ++ a ++ [get_ctd_folder_name comp] with
                            | nil => simp at hq
                            | cons c0 q' =>
                                exact Or.inr ⟨c0, q' ++ [n2], s2, rfl,
                                  hdl c0 (hhead c0 (by rw [hq]; rfl))⟩
                        · cases hq : p ++ a ++ [get_ctd_folder_name comp] with
                          | nil => simp at hq
                          | cons c0 q' =>
                              rw [hq] at hok
                              simp only [linkHeadOK] at hok
                              exact Or.inr ⟨c, t, s, he2,
                                hdl c (hhead c (by rw [hq, hok]; rfl))⟩
                      · exact Or.inr ⟨c, t, s, he2, wlink c hok⟩

/-- Folding entries into the tree adds at most their paths' folder
names (shared helper). -/
theorem count_names_foldl (entries : List (List String × List (String × String))) :
    ∀ (acc : List (String × CNode)) (x : String),
    (forestNames (entries.foldl (fun f e => insertPath f e.1 e.2) acc)).count x ≤
      (forestNames acc).count x +
        (entries.map (fun e => ((e.1.map get_ctd_folder_name).count x))).sum := by
  induction entries with
  | nil => intro acc x; simp
  | cons e rest ih =>
      intro acc x
      rw [List.foldl_cons, List.map_cons, List.sum_cons]
      have h1 := ih (insertPath acc e.1 e.2) x
      have h2 := count_names_insertPath acc e.1 e.2 x
      omega

/-- Folding entries into the tree adds at most their filenames (shared
helper). -/
theorem count_files_foldl (entries : List (List String × List (String × String))) :
    ∀ (acc : List (String × CNode)) (x : String),
    (forestFiles (entries.foldl (fun f e => insertPath f e.1 e.2) acc)).count x ≤
      (forestFiles acc).count x +
        (entries.map (fun e => ((e.2.map Prod.fst).count x))).sum := by
  induction entries with
  | nil => intro acc x; simp
  | cons e rest ih =>
      intro acc x
      rw [List.foldl_cons, List.map_cons, List.sum_cons]
      have h1 := ih (insertPath acc e.1 e.2) x
      have h2 := count_files_insertPath acc e.1 e.2 x
      omega

/-- Root keys of the built tree come from the entries' path heads
(shared helper). -/
theorem foldl_keys (entries : List (List String × List (String × String))) :
    ∀ (acc : List (String × CNode)) (k : String),
    k ∈ ((entries.foldl (fun f e => insertPath f e.1 e.2) acc).map Prod.fst) →
    k ∈ acc.map Prod.fst ∨ ∃ e ∈ entries, e.1.head? = some k := by
  induction entries with
  | nil => intro acc k hk; exact Or.inl hk
  | cons e rest ih =>
      intro acc k hk
      rw [List.foldl_cons] at hk
      rcases ih (insertPath acc e.1 e.2) k hk with h | ⟨e2, he2, hh⟩
      · rw [List.mem_map] at h
        obtain ⟨ent, hent, hke⟩ := h
        rcases insertPath_keys acc e.1 e.2 ent hent with h2 | h2
        · exact Or.inl (hke ▸ h2)
        · exact Or.inr ⟨e, List.mem_cons_self _ _, by rw [hke] at h2; exact h2⟩
      · exact Or.inr ⟨e2, List.mem_cons_of_mem _ he2, hh⟩

/-- Root keys of the built tree come from the entries' path heads
(shared helper). -/
theorem foldl_keys_nodup (entries : List (List String × List (String × String))) :
    ∀ (acc : List (String × CNode)), (acc.map Prod.fst).Nodup →
    (((entries.foldl (fun f e => insertPath f e.1 e.2) acc)).map Prod.fst).Nodup := by
  induction entries with
  | nil => intro acc h; exact h
  | cons e rest ih =>
      intro acc h
      rw [List.foldl_cons]
      exact ih _ (insertPath_keys_nodup acc e.1 e.2 h)

/-- An entry under a root key no later path starts with survives the
rest of the build untouched (shared helper). -/
theorem foldl_mem (entries : List (List String × List (String × String)))
    (A : String) (hA : ∀ e ∈ entries, e.1.head? ≠ some A) :
    ∀ (acc : List (String × CNode)) (node : CNode), (A, node) ∈ acc →
    (A, node) ∈ entries.foldl (fun f e => insertPath f e.1 e.2) acc := by
  induction entries with
  | nil => intro acc node h; exact h
  | cons e rest ih =>
      intro acc node h
      rw [List.foldl_cons]
      refine ih (fun e2 he2 => hA e2 (List.mem_cons_of_mem _ he2)) _ node ?_
      cases hp : e.1 with
      | nil =>
          rw [insertPath]
          exact h
      | cons c tail =>
          refine insertPath_mem_of_ne acc (c :: tail) e.2 c rfl _ h ?_
          intro hAc
          have hAc2 : A = c := hAc
          exact hA e (List.mem_cons_self _ _) (by rw [hp, hAc2]; rfl)

/-- With a single file at key path `[A, B]` and no other entry rooted
at `A`, the sorted tree splits around the exact two-level single-chain
`A` entry, with every other root key different from `A` (shared
helper). -/
theorem buildTree_split (A B f src : String)
    (pre post : List (List String × List (String × String)))
    (hA : ∀ e ∈ pre ++ post, e.1.head? ≠ some A) :
    ∃ S1 S2,
      sortByKey (buildTree (pre ++ ([A, B], [(f, src)]) :: post)) =
        S1 ++ (A, CNode.mk [(B, CNode.mk [] [(f, src)])] []) :: S2 ∧
      (∀ ent ∈ S1, ent.1 ≠ A) ∧ (∀ ent ∈ S2, ent.1 ≠ A) := by
  have hApre : ∀ e ∈ pre, e.1.head? ≠ some A :=
    fun e he => hA e (List.mem_append_left _ he)
  have hApost : ∀ e ∈ post, e.1.head? ≠ some A :=
    fun e he => hA e (List.mem_append_right _ he)
  unfold buildTree
  rw [List.foldl_append, List.foldl_cons]
  set F1 := pre.foldl (fun f e => insertPath f e.1 e.2) [] with hF1
  have hAF1 : A ∉ F1.map Prod.fst := by
    intro hk
    rcases foldl_keys pre [] A hk with h | ⟨e, he, hh⟩
    · simp at h
    · exact hApre e he hh
  have hndF1 : (F1.map Prod.fst).Nodup := foldl_keys_nodup pre [] (by simp)
  have hstep : insertPath F1 [A, B] [(f, src)] =
      F1 ++ [(A, CNode.mk [(B, CNode.mk [] [(f, src)])] [])] := by
    rw [insertPath_fresh F1 [A, B] [(f, src)] A rfl hAF1]
    rw [insertPath, insertPath]
  rw [hstep]
  set nodeA := CNode.mk [(B, CNode.mk [] [(f, src)])] [] with hnodeA
  set F := post.foldl (fun f e => insertPath f e.1 e.2)
    (F1 ++ [(A, nodeA)]) with hF
  have hmem : (A, nodeA) ∈ F :=
    foldl_mem post A hApost _ nodeA (by simp)
  have hnd : (F.map Prod.fst).Nodup := by
    refine foldl_keys_nodup post _ ?_
    rw [List.map_append]
    simp only [List.map_cons, List.map_nil]
    rw [List.nodup_append]
    exact ⟨hndF1, List.nodup_singleton _, by
      intro x hx hx2
      simp only [List.mem_singleton] at hx2
      subst hx2
      exact hAF1 hx⟩
  have hmemS : (A, nodeA) ∈ sortByKey F := (sortByKey_perm F).mem_iff.mpr hmem
  have hndS : ((sortByKey F).map Prod.fst).Nodup :=
    (((sortByKey_perm F).map Prod.fst).nodup_iff).mpr hnd
  obtain ⟨S1, S2, hsplit⟩ := List.append_of_mem hmemS
  refine ⟨S1, S2, hsplit, ?_, ?_⟩
  · intro ent hent hAe
    rw [hsplit, List.map_append, List.map_cons] at hndS
    rw [List.nodup_append] at hndS
    have hx : A ∈ S1.map Prod.fst := by
      rw [← hAe]
      exact List.mem_map_of_mem Prod.fst hent
    exact hndS.2.2 hx (by simp)
  · intro ent hent hAe
    rw [hsplit, List.map_append, List.map_cons] at hndS
    rw [List.nodup_append] at hndS
    have hx : A ∈ S2.map Prod.fst := by
      rw [← hAe]
      exact List.mem_map_of_mem Prod.fst hent
    have h2 := hndS.2.1
    rw [List.nodup_cons] at h2
    exact h2.1 hx

/-- Processing the single-chain `A` entry collapses it: no directory is
created and the single file is linked directly at the parent level
(shared helper). -/
theorem clGo_collapseA (A B f src : String) (S2 : List (String × CNode))
    (st : MState) (hne : linkExists st [f] = false) :
    clGo ((A, CNode.mk [(B, CNode.mk [] [(f, src)])] []) :: S2) [] [] st =
      clGo S2 [] []
        { st with links := st.links ++ [([f], src)], linked := st.linked + 1 } := by
  rw [clGo_cons]
  congr 1
  rw [if_neg (by simp), if_neg (by simp), if_pos (by simp)]
  rw [show sortByKey [(B, CNode.mk [] [(f, src)])] =
    [(B, CNode.mk [] [(f, src)])] from rfl]
  rw [clGo_cons]
  rw [if_neg (by simp), if_pos (by simp)]
  simp only []
  rw [if_neg (by simp [hne])]
  rw [clGo_nil]
  rfl

/-- The tree's folder-name multiset is bounded by the entries' paths
(shared helper). -/
theorem count_buildTree_names (entries : List (List String × List (String × String)))
    (x : String) :
    (forestNames (buildTree entries)).count x ≤
      (entries.map (fun e => ((e.1.map get_ctd_folder_name).count x))).sum := by
  have h := count_names_foldl entries [] x
  have h0 : (forestNames ([] : List (String × CNode))).count x = 0 := by
    rw [forestNames]
    rfl
  unfold buildTree
  omega

/-- The tree's filename multiset is bounded by the entries' files
(shared helper). -/
theorem count_buildTree_files (entries : List (List String × List (String × String)))
    (x : String) :
    (forestFiles (buildTree entries)).count x ≤
      (entries.map (fun e => ((e.2.map Prod.fst).count x))).sum := by
  have h := count_files_foldl entries [] x
  have h0 : (forestFiles ([] : List (String × CNode))).count x = 0 := by
    rw [forestFiles]
    rfl
  unfold buildTree
  omega

/-- **C3**: in a collection where exactly one file lies under the key
path `[A, B]` and no other entry's path is rooted at `A` (no siblings
anywhere under `A`), with the side conditions that the folder names and
filenames involved do not collide, the materialized structure links the
single file directly at the root level and contains no `A/` or `A/B/`
directory: no created directory path starts with `A`'s folder name, so
no wrapper folder is ever created for the collapsed single-child
chain. -/
theorem claim_C3_single_file_collapse (A B f src : String)
    (pre post : List (List String × List (String × String)))
    (h1 : ∀ e ∈ pre ++ post, e.1.head? ≠ some A)
    (h2 : ∀ e ∈ pre ++ post, ∀ comp ∈ e.1,
      get_ctd_folder_name comp ≠ get_ctd_folder_name A ∧
      get_ctd_folder_name comp ≠ f)
    (h3 : ∀ e ∈ pre ++ post, ∀ pr ∈ e.2, pr.1 ≠ f)
    (h4 : f ≠ get_ctd_folder_name A) (h5 : f ≠ get_ctd_folder_name B)
    (h6 : get_ctd_folder_name B ≠ get_ctd_folder_name A) :
    ([f], src) ∈
      (create_links (buildTree (pre ++ ([A, B], [(f, src)]) :: post))).links ∧
    ∀ d ∈ (create_links (buildTree (pre ++ ([A, B], [(f, src)]) :: post))).dirs,
      d.head? ≠ some (get_ctd_folder_name A) := by
  obtain ⟨S1, S2, hsplit, hS1, hS2⟩ := buildTree_split A B f src pre post h1
  -- forest-level count bounds transported to the sorted level
  have hsum_names : ∀ x : String,
      (forestNames (sortByKey (buildTree (pre ++ ([A, B], [(f, src)]) :: post)))).count x ≤
        (pre.map (fun e => ((e.1.map get_ctd_folder_name).count x))).sum +
        (([A, B].map get_ctd_folder_name).count x) +
        (post.map (fun e => ((e.1.map get_ctd_folder_name).count x))).sum := by
    intro x
    rw [(forestNames_perm (sortByKey_perm _)).count_eq]
    refine le_trans (count_buildTree_names _ _) ?_
    rw [List.map_append, List.map_cons, List.sum_append, List.sum_cons]
    simp only []
    omega
  have hsum_files : ∀ x : String,
      (forestFiles (sortByKey (buildTree (pre ++ ([A, B], [(f, src)]) :: post)))).count x ≤
        (pre.map (fun e => ((e.2.map Prod.fst).count x))).sum +
        (([(f, src)].map Prod.fst).count x) +
        (post.map (fun e => ((e.2.map Prod.fst).count x))).sum := by
    intro x
    rw [(forestFiles_perm (sortByKey_perm _)).count_eq]
    refine le_trans (count_buildTree_files _ _) ?_
    rw [List.map_append, List.map_cons, List.sum_append, List.sum_cons]
    simp only []
    omega
  have hzero_names : ∀ (x : String), (∀ e ∈ pre ++ post, ∀ comp ∈ e.1,
      get_ctd_folder_name comp ≠ x) → ∀ l ∈ [pre, post],
      ((l.map (fun e => ((e.1.map get_ctd_folder_name).count x))).sum = 0) := by
    intro x hx l hl
    apply List.sum_eq_zero
    intro i hi
    rw [List.mem_map] at hi
    obtain ⟨e, he, hie⟩ := hi
    rw [← hie, List.count_eq_zero]
    intro hmem
    rw [List.mem_map] at hmem
    obtain ⟨comp, hcomp, heq⟩ := hmem
    have hee : e ∈ pre ++ post := by
      simp only [List.mem_cons, List.mem_singleton] at hl
      rcases hl with hl | hl | hl
      · exact List.mem_append_left _ (hl ▸ he)
      · exact List.mem_append_right _ (hl ▸ he)
      · simp at hl
    exact hx e hee comp hcomp heq
  have hzero_files : ∀ (x : String), (∀ e ∈ pre ++ post, ∀ pr ∈ e.2, pr.1 ≠ x) →
      ∀ l ∈ [pre, post],
      ((l.map (fun e => ((e.2.map Prod.fst).count x))).sum = 0) := by
    intro x hx l hl
    apply List.sum_eq_zero
    intro i hi
    rw [List.mem_map] at hi
    obtain ⟨e, he, hie⟩ := hi
    rw [← hie, List.count_eq_zero]
    intro hmem
    rw [List.mem_map] at hmem
    obtain ⟨pr, hpr, heq⟩ := hmem
    have hee : e ∈ pre ++ post := by
      simp only [List.mem_cons, List.mem_singleton] at hl
      rcases hl with hl | hl | hl
      · exact List.mem_append_left _ (hl ▸ he)
      · exact List.mem_append_right _ (hl ▸ he)
      · simp at hl
    exact hx e hee pr hpr heq
  -- names of the sorted forest, decomposed around the A entry
  have hnamesS : forestNames (sortByKey (buildTree
      (pre ++ ([A, B], [(f, src)]) :: post))) =
      forestNames S1 ++ (get_ctd_folder_name A ::
        (forestNames [(B, CNode.mk [] [(f, src)])] ++ forestNames S2)) := by
    rw [hsplit, forestNames_append, forestNames]
  have hfilesS : forestFiles (sortByKey (buildTree
      (pre ++ ([A, B], [(f, src)]) :: post))) =
      forestFiles S1 ++ (([] : List (String × String)).map Prod.fst ++
        (forestFiles [(B, CNode.mk [] [(f, src)])] ++ forestFiles S2)) := by
    rw [hsplit, forestFiles_append, forestFiles]
  have hnamesB : forestNames [(B, CNode.mk [] [(f, src)])] =
      [get_ctd_folder_name B] := by
    rw [forestNames]
    rw [forestNames]
    rfl
  have hfilesB : forestFiles [(B, CNode.mk [] [(f, src)])] = [f] := by
    rw [forestFiles]
    rw [forestFiles]
    rfl
  -- the key exclusions
  have hfnA_S1 : get_ctd_folder_name A ∉ forestNames S1 := by
    intro hm
    have hc := hsum_names (get_ctd_folder_name A)
    rw [hnamesS, hnamesB] at hc
    rw [hzero_names _ (fun e he comp hcomp => (h2 e he comp hcomp).1) pre (by simp),
      hzero_names _ (fun e he comp hcomp => (h2 e he comp hcomp).1) post (by simp)] at hc
    simp only [List.count_append, List.count_cons, List.map_cons, List.map_nil,
      List.count_nil] at hc
    have hm1 : 1 ≤ (forestNames S1).count (get_ctd_folder_name A) :=
      List.count_pos_iff.mpr hm
    simp only [beq_iff_eq, h6, if_false, if_pos rfl] at hc
    omega
  have hfnA_S2 : get_ctd_folder_name A ∉ forestNames S2 := by
    intro hm
    have hc := hsum_names (get_ctd_folder_name A)
    rw [hnamesS, hnamesB] at hc
    rw [hzero_names _ (fun e he comp hcomp => (h2 e he comp hcomp).1) pre (by simp),
      hzero_names _ (fun e he comp hcomp => (h2 e he comp hcomp).1) post (by simp)] at hc
    simp only [List.count_append, List.count_cons, List.map_cons, List.map_nil,
      List.count_nil] at hc
    have hm1 : 1 ≤ (forestNames S2).count (get_ctd_folder_name A) :=
      List.count_pos_iff.mpr hm
    simp only [beq_iff_eq, h6, if_false, if_pos rfl] at hc
    omega
  have hf_namesS1 : f ∉ forestNames S1 := by
    intro hm
    have hc := hsum_names f
    rw [hnamesS, hnamesB] at hc
    rw [hzero_names _ (fun e he comp hcomp => (h2 e he comp hcomp).2) pre (by simp),
      hzero_names _ (fun e he comp hcomp => (h2 e he comp hcomp).2) post (by simp)] at hc
    simp only [List.count_append, List.count_cons, List.map_cons, List.map_nil,
      List.count_nil] at hc
    have hm1 : 1 ≤ (forestNames S1).count f := List.count_pos_iff.mpr hm
    simp only [beq_iff_eq, Ne.symm h4, Ne.symm h5, if_false] at hc
    omega
  have hf_filesS1 : f ∉ forestFiles S1 := by
    intro hm
    have hc := hsum_files f
    rw [hfilesS, hfilesB] at hc
    rw [hzero_files _ h3 pre (by simp), hzero_files _ h3 post (by simp)] at hc
    simp only [List.count_append, List.count_cons, List.map_cons, List.map_nil,
      List.count_nil] at hc
    have hm1 : 1 ≤ (forestFiles S1).count f := List.count_pos_iff.mpr hm
    simp only [beq_iff_eq, if_pos rfl] at hc
    omega
  -- run the materializer
  unfold create_links
  rw [hsplit, clGo_append]
  have hd0 := (clGo_new (sizeOf S1) S1 [] [] {} le_rfl).1
  have hl0 := (clGo_new (sizeOf S1) S1 [] [] {} le_rfl).2
  have hnex : linkExists (clGo S1 [] [] {}) [f] = false := by
    rw [linkExists]
    rw [Bool.or_eq_false_iff]
    constructor
    · rw [← Bool.not_eq_true]
      intro hmem
      rw [List.contains_iff_exists_mem_beq] at hmem
      obtain ⟨d', hd', hbeq⟩ := hmem
      have hde : [f] = d' := eq_of_beq hbeq
      subst hde
      rcases hd0 [f] hd' with h | h | ⟨c, t, he2, hok⟩
      · simp only [MState.dirs] at h
        simp at h
      · simp at h
      · simp only [List.cons.injEq] at he2
        obtain ⟨hc, ht⟩ := he2
        subst hc
        simp only [dirHeadOK] at hok
        exact hf_namesS1 hok
    · rw [← Bool.not_eq_true]
      intro hmem
      rw [List.contains_iff_exists_mem_beq] at hmem
      obtain ⟨d', hd', hbeq⟩ := hmem
      have hde : [f] = d' := eq_of_beq hbeq
      subst hde
      rw [List.mem_map] at hd'
      obtain ⟨pr, hpr, hfst⟩ := hd'
      obtain ⟨lp, s⟩ := pr
      simp only [] at hfst
      subst hfst
      rcases hl0 ([f], s) hpr with h | ⟨c, t, s2, he2, hok⟩
      · simp only [MState.links] at h
        simp at h
      · simp only [Prod.mk.injEq, List.cons.injEq] at he2
        obtain ⟨⟨hc, ht⟩, hs⟩ := he2
        subst hc
        simp only [linkHeadOK] at hok
        rcases hok with hok | hok
        · exact hf_filesS1 hok
        · exact hf_namesS1 hok
  rw [clGo_collapseA A B f src S2 _ hnex]
  set st1 : MState := { clGo S1 [] [] {} with
    links := (clGo S1 [] [] {}).links ++ [([f], src)],
    linked := (clGo S1 [] [] {}).linked + 1 } with hst1
  constructor
  · exact (clGo_mono (sizeOf S2) S2 [] [] st1 le_rfl).2 ([f], src) (by simp [hst1])
  · intro d hd hhead
    rcases (clGo_new (sizeOf S2) S2 [] [] st1 le_rfl).1 d hd with h | h | ⟨c, t, he2, hok⟩
    · have hd1 : d ∈ (clGo S1 [] [] {}).dirs := by
        simpa [hst1] using h
      rcases hd0 d hd1 with h2 | h2 | ⟨c, t, he2, hok⟩
      · simp only [MState.dirs] at h2
        simp only [List.mem_singleton] at h2
        subst h2
        simp at hhead
      · subst h2
        simp at hhead
      · subst he2
        simp only [List.head?_cons, Option.some.injEq] at hhead
        subst hhead
        simp only [dirHeadOK] at hok
        exact hfnA_S1 hok
    · subst h
      simp at hhead
    · subst he2
      simp only [List.head?_cons, Option.some.injEq] at hhead
      subst hhead
      simp only [dirHeadOK] at hok
      exact hfnA_S2 hok

/-- C3 witness: with one file `form.pdf` under `["1", "1.1"]` and a
single unrelated entry under `["2"]`, the file is linked at the root and
no directory under `1) Administrative` exists. -/
theorem claim_C3_witness :
    (["form.pdf"], "src1") ∈
      (create_links (buildTree ([] ++ (["1", "1.1"], [("form.pdf", "src1")]) ::
        [(["2"], [("other.pdf", "src2")])]))).links ∧
    ∀ d ∈ (create_links (buildTree ([] ++ (["1", "1.1"],
        [("form.pdf", "src1")]) :: [(["2"], [("other.pdf", "src2")])]))).dirs,
      d.head? ≠ some (get_ctd_folder_name "1") :=
  claim_C3_single_file_collapse "1" "1.1" "form.pdf" "src1" []
    [(["2"], [("other.pdf", "src2")])]
    (by decide) (by decide) (by decide) (by decide) (by decide) (by decide)
